import Mathlib

/-!
# Shallow embedding of two heap allocators

This file embeds the two C heap allocators of the repository — an explicit
free-list allocator (`Explicit`) and an implicit free-list allocator
(`Implicit`) — and proves properties of the allocator operations.

Memory is modelled as a total map from byte addresses to the 64-bit word
stored starting at that address.  The allocators only access memory at
addresses that differ from the segment base by a multiple of 8 (headers and
the two free-list link words), so on every run considered here distinct
accessed addresses denote disjoint 8-byte words and the word-granular model
agrees with byte-addressed memory.  The C null pointer is modelled as the
address 0; block addresses are always at least `base + 8 > 0`.

`size_t` subtraction, which wraps at `2^64` in C, is modelled by `sub64`
wherever the source expression may underflow; additions are modelled as plain
`Nat` additions (all hypotheses used below bound the quantities far under
`2^64`, so wrap-around of an addition never matters).  Pointers returned by
the allocation functions are plain `Nat`s with `0` playing the role of the C
null return.
-/

abbrev Mem : Type := Nat → Nat

def store (m : Mem) (a v : Nat) : Mem := fun x => if x = a then v else m x

/-- The byte width of a header word / alignment unit, `#define WIDTH 8`. -/
def WIDTH : Nat := 8

/-- C `size_t` subtraction `a - b` (wraps modulo `2^64`); callers only use it
with `b < 2^64`. -/
def sub64 (a b : Nat) : Nat := (a + 2 ^ 64 - b) % 2 ^ 64

/-- `memcpy(dst, src, n)` on word-granular memory: every 8-aligned offset
below `n` is copied (all calls in the source pass a multiple of 8). -/
def memcpy (m : Mem) (dst src n : Nat) : Mem :=
  fun x =>
    if dst ≤ x ∧ x < dst + n ∧ (x - dst) % 8 = 0 then m (src + (x - dst)) else m x

theorem store_eq (m : Mem) (a v : Nat) : store m a v a = v := by
  simp [store]

theorem store_ne (m : Mem) (a v x : Nat) (h : x ≠ a) : store m a v x = m x := by
  simp [store, h]

theorem sub64_eq_sub (a b : Nat) (hba : b ≤ a) (ha : a < 2 ^ 64) :
    sub64 a b = a - b := by
  unfold sub64
  omega

namespace Explicit

/-- Global allocator state of `explicit_allocator.c`: the heap memory plus the
file-scope variables `segment_start`, `segment_size`, `start_block`,
`nblocks`, `nused`, `last_free_block`. -/
structure St where
  mem : Mem
  segment_start : Nat
  segment_size : Nat
  start_block : Nat
  nblocks : Nat
  nused : Nat
  last_free_block : Nat

/-- `create_hdr`: write a fresh header (`size << 2`, then the two link words)
at `loc`. -/
def create_hdr (m : Mem) (loc size prev next : Nat) : Mem :=
  store (store (store m loc ((size <<< 2) % 2 ^ 64)) (loc + WIDTH) prev)
    (loc + 2 * WIDTH) next

/-- `get_hdr`: the header of a block starts `WIDTH` bytes before its payload. -/
def get_hdr (block_ptr : Nat) : Nat := block_ptr - WIDTH

/-- `get_block_size`: payload size stored in the header, `block_size >> 2`. -/
def get_block_size (m : Mem) (block_ptr : Nat) : Nat :=
  m (get_hdr block_ptr) >>> 2

/-- `get_next_block`: address-order successor `block_ptr + size + WIDTH`
(no bound check in the explicit variant). -/
def get_next_block (m : Mem) (block_ptr : Nat) : Nat :=
  block_ptr + get_block_size m block_ptr + WIDTH

/-- `get_next_free`: the `next_ptr` field (second word after the header),
null-guarded as in the source. -/
def get_next_free (m : Mem) (block_ptr : Nat) : Nat :=
  if block_ptr ≠ 0 then m (get_hdr block_ptr + 2 * WIDTH) else 0

/-- `get_prev_free`: the `prev_ptr` field (first word after the header),
null-guarded as in the source. -/
def get_prev_free (m : Mem) (block_ptr : Nat) : Nat :=
  if block_ptr ≠ 0 then m (get_hdr block_ptr + WIDTH) else 0

/-- `check_alloc`: the allocation bit `block_size & 0x1`. -/
def check_alloc (m : Mem) (block_ptr : Nat) : Nat :=
  m (get_hdr block_ptr) &&& 1

/-- `round_up`: round to a multiple of 8, clamped below by 16
(`(req + 7) & ~7`, then `< 16 ? 16`). -/
def round_up (req_size : Nat) : Nat :=
  let rounded_size := ((req_size + WIDTH - 1) % 2 ^ 64) &&& (2 ^ 64 - WIDTH)
  if rounded_size < 16 then 16 else rounded_size

/-- `set_hdr_size`: `(hdr & 0x3) | (upd_size << 2)`. -/
def set_hdr_size (m : Mem) (block_ptr upd_size : Nat) : Mem :=
  store m (get_hdr block_ptr)
    ((m (get_hdr block_ptr) &&& 3) ||| ((upd_size <<< 2) % 2 ^ 64))

/-- `set_hdr_status`: `(hdr & ~0x3) | status`. -/
def set_hdr_status (m : Mem) (block_ptr status : Nat) : Mem :=
  store m (get_hdr block_ptr)
    ((m (get_hdr block_ptr) &&& (2 ^ 64 - 4)) ||| status)

/-- `set_prev_ptr`: write the `prev_ptr` field, no-op on the null pointer. -/
def set_prev_ptr (m : Mem) (block_ptr prev : Nat) : Mem :=
  if block_ptr ≠ 0 then store m (get_hdr block_ptr + WIDTH) prev else m

/-- `set_next_ptr`: write the `next_ptr` field, no-op on the null pointer. -/
def set_next_ptr (m : Mem) (block_ptr next : Nat) : Mem :=
  if block_ptr ≠ 0 then store m (get_hdr block_ptr + 2 * WIDTH) next else m

/-- `upd_last_free_block`: if `last_free_block` is `cmp_block`, redirect it to
`new_block`. -/
def upd_last_free_block (st : St) (cmp_block new_block : Nat) : St :=
  if st.last_free_block = cmp_block then
    { st with last_free_block := new_block }
  else st

/-- The loop of `first_fit`: walk `prev_free` links for `fuel` iterations;
note that the source returns the current cursor (not null) on exhaustion. -/
def first_fit_loop (m : Mem) (req_size : Nat) : Nat → Nat → Nat
  | 0, curr_block => curr_block
  | fuel + 1, curr_block =>
    if req_size ≤ get_block_size m curr_block ∧ check_alloc m curr_block = 0 then
      curr_block
    else
      first_fit_loop m req_size fuel (get_prev_free m curr_block)

/-- `first_fit`: search backward from `last_free_block` for
`nblocks - nused` iterations. -/
def first_fit (st : St) (req_size : Nat) : Nat :=
  first_fit_loop st.mem req_size (sub64 st.nblocks st.nused) st.last_free_block

/-- `create_partial_fb`: replace the about-to-be-allocated free block
`orig_block` by the remainder block `new_fb` inside the free list. -/
def create_partial_fb (st : St) (orig_block new_fb fb_size : Nat) : St :=
  let new_free_hdr := get_hdr new_fb
  let orig_prev := get_prev_free st.mem orig_block
  let orig_next := get_next_free st.mem orig_block
  let m1 := set_next_ptr st.mem orig_prev new_fb
  let m2 := set_prev_ptr m1 orig_next new_fb
  let m3 := create_hdr m2 new_free_hdr fb_size orig_prev orig_next
  upd_last_free_block { st with mem := m3 } orig_block new_fb

/-- `change_to_free`: mark `new_free` free and append it as the new
`last_free_block`. -/
def change_to_free (st : St) (new_free : Nat) : St :=
  let m1 := set_hdr_status st.mem new_free 0
  let m2 := set_next_ptr m1 st.last_free_block new_free
  let m3 := set_prev_ptr m2 new_free st.last_free_block
  let m4 := set_next_ptr m3 new_free 0
  { st with mem := m4, last_free_block := new_free }

/-- `coalesce`: absorb the address-order right neighbor into `new_free`,
taking over the neighbor's free-list position. -/
def coalesce (st : St) (new_free : Nat) : St :=
  let neighbor := get_next_block st.mem new_free
  let neighbor_prev := get_prev_free st.mem neighbor
  let neighbor_next := get_next_free st.mem neighbor
  let m1 := set_hdr_status st.mem new_free 0
  let m2 := set_hdr_size m1 new_free
    (get_block_size m1 new_free + get_block_size m1 neighbor + WIDTH)
  let m3 := set_prev_ptr m2 new_free neighbor_prev
  let m4 := set_next_ptr m3 new_free neighbor_next
  let m5 := set_prev_ptr m4 neighbor_next new_free
  let m6 := set_next_ptr m5 neighbor_prev new_free
  upd_last_free_block { st with mem := m6 } neighbor new_free

/-- The loop of `right_search`: count free right neighbors until `add_size`
bytes are accumulated; return 0 as soon as an allocated block appears.
Terminates because each iteration grows `total_space` by at least `WIDTH`. -/
def right_search_loop (m : Mem) (r_neighbor add_size total_space block_count : Nat) :
    Nat :=
  if total_space < add_size then
    if check_alloc m r_neighbor ≠ 0 then 0
    else
      right_search_loop m (get_next_block m r_neighbor) add_size
        (total_space + (get_block_size m r_neighbor + WIDTH)) (block_count + 1)
  else block_count
termination_by add_size - total_space
decreasing_by
  simp only [WIDTH]
  omega

/-- `right_search` with its local accumulators initialised to 0. -/
def right_search (m : Mem) (r_neighbor add_size : Nat) : Nat :=
  right_search_loop m r_neighbor add_size 0 0

/-- The loop of `fix_neighbors`, recursing on the number of remaining
iterations (`remaining = 0` corresponds to exiting the `for` loop;
`remaining = 1` is the final iteration `i == num_blocks`).  Returns the
updated state together with the (possibly padded) `*new_size`. -/
def fix_neighbors_go (st : St) (neighbor new_size space_needed : Nat) :
    Nat → St × Nat
  | 0 => (st, new_size)
  | remaining + 1 =>
    if remaining = 0 ∧
        24 ≤ sub64 (get_block_size st.mem neighbor + WIDTH) space_needed then
      let new_partial_fb := neighbor + space_needed
      let new_fb_size := sub64 (get_block_size st.mem neighbor) space_needed
      (create_partial_fb st neighbor new_partial_fb new_fb_size, new_size)
    else
      let new_size2 :=
        if remaining = 0 then
          new_size + sub64 (get_block_size st.mem neighbor + WIDTH) space_needed
        else new_size
      let neighbor_prev := get_prev_free st.mem neighbor
      let m1 := set_next_ptr st.mem neighbor_prev (get_next_free st.mem neighbor)
      let m2 := set_prev_ptr m1 (get_next_free m1 neighbor) (get_prev_free m1 neighbor)
      let st1 := upd_last_free_block { st with mem := m2 } neighbor neighbor_prev
      let space_needed2 := sub64 space_needed (get_block_size st1.mem neighbor + WIDTH)
      let neighbor2 := get_next_block st1.mem neighbor
      let st2 := { st1 with nblocks := sub64 st1.nblocks 1 }
      fix_neighbors_go st2 neighbor2 new_size2 space_needed2 remaining

/-- `fix_neighbors(neighbor, &new_size, num_blocks, space_needed)`. -/
def fix_neighbors (st : St) (neighbor new_size num_blocks space_needed : Nat) :
    St × Nat :=
  fix_neighbors_go st neighbor new_size space_needed num_blocks

/-- `myinit`: unconditionally reset the allocator over
`[heap_start, heap_start + heap_size)` and return `true`. -/
def myinit (m : Mem) (heap_start heap_size : Nat) : Bool × St :=
  let segment_start := heap_start
  let last_free_block := segment_start + WIDTH
  let m1 := create_hdr m segment_start (sub64 heap_size WIDTH) 0 0
  (true,
    { mem := m1
      segment_start := segment_start
      segment_size := heap_size
      start_block := last_free_block
      nblocks := 1
      nused := 0
      last_free_block := last_free_block })

/-- `mymalloc`: first-fit allocation with the `< sizeof(header)` padding /
split policy; returns the payload pointer (0 for the C null return). -/
def mymalloc (st : St) (req_size0 : Nat) : Nat × St :=
  if req_size0 = 0 then (0, st)
  else
    let req_size := round_up req_size0
    let alloc_block := first_fit st req_size
    if alloc_block ≠ 0 then
      let size_diff := sub64 (get_block_size st.mem alloc_block) req_size
      if size_diff < 24 then
        let req_size2 := size_diff + req_size
        let st1 :=
          if alloc_block = st.last_free_block then
            let lf2 := get_prev_free st.mem st.last_free_block
            { st with mem := set_next_ptr st.mem lf2 0, last_free_block := lf2 }
          else
            let m1 := set_prev_ptr st.mem (get_next_free st.mem alloc_block)
              (get_prev_free st.mem alloc_block)
            let m2 := set_next_ptr m1 (get_prev_free m1 alloc_block)
              (get_next_free m1 alloc_block)
            { st with mem := m2 }
        let m3 := set_hdr_status (set_hdr_size st1.mem alloc_block req_size2)
          alloc_block 1
        (alloc_block, { st1 with mem := m3, nused := st1.nused + 1 })
      else
        let new_partial_fb := alloc_block + req_size + WIDTH
        let st1 := create_partial_fb st alloc_block new_partial_fb
          (sub64 size_diff WIDTH)
        let st2 := { st1 with nblocks := st1.nblocks + 1 }
        let m3 := set_hdr_status (set_hdr_size st2.mem alloc_block req_size)
          alloc_block 1
        (alloc_block, { st2 with mem := m3, nused := st2.nused + 1 })
    else (0, st)

/-- `myfree`: coalesce with the right neighbor when that neighbor's status
bit reads as free, else append to the free list. -/
def myfree (st : St) (ptr : Nat) : St :=
  if ptr ≠ 0 then
    let st1 :=
      if check_alloc st.mem (get_next_block st.mem ptr) = 0 then
        let st2 := coalesce st ptr
        { st2 with nblocks := sub64 st2.nblocks 1 }
      else change_to_free st ptr
    { st1 with nused := sub64 st1.nused 1 }
  else st

/-- `myrealloc`: delegate on null / zero, shrink in place (splitting off a
tail when at least `sizeof(header)` bytes remain), grow in place through
`right_search` / `fix_neighbors`, else allocate-copy-free. -/
def myrealloc (st : St) (old_ptr new_size0 : Nat) : Nat × St :=
  if old_ptr = 0 then mymalloc st new_size0
  else if new_size0 = 0 then (0, myfree st old_ptr)
  else
    let curr_size := get_block_size st.mem old_ptr
    let new_size := round_up new_size0
    if new_size ≤ curr_size then
      let size_diff := curr_size - new_size
      if 24 ≤ size_diff then
        let new_free_start := old_ptr + new_size + WIDTH
        let st1 := { st with mem := set_hdr_size st.mem old_ptr new_size }
        let st2 := change_to_free st1 new_free_start
        let st3 :=
          { st2 with
            mem := set_hdr_size st2.mem new_free_start (size_diff - WIDTH)
            nblocks := st2.nblocks + 1 }
        (old_ptr, st3)
      else (old_ptr, st)
    else
      let size_diff := new_size - curr_size
      let r_free_blocks := right_search st.mem (old_ptr + curr_size + WIDTH) size_diff
      if r_free_blocks ≠ 0 then
        let res := fix_neighbors st (get_next_block st.mem old_ptr) new_size
          r_free_blocks size_diff
        (old_ptr, { res.1 with mem := set_hdr_size res.1.mem old_ptr res.2 })
      else
        let res := mymalloc st new_size
        let new_ptr := res.1
        let m2 := memcpy res.2.mem new_ptr old_ptr new_size
        let st2 := myfree { res.2 with mem := m2 } old_ptr
        (new_ptr, st2)

end Explicit

namespace Implicit

/-- Global allocator state of `implicit_allocator.c`. -/
structure St where
  mem : Mem
  segment_start : Nat
  segment_end : Nat
  segment_size : Nat
  nblocks : Nat
  nused : Nat
  bytes_used : Nat
  start_block : Nat

/-- `get_hdr`. -/
def get_hdr (block_ptr : Nat) : Nat := block_ptr - WIDTH

/-- `get_ul`: read the raw header word. -/
def get_ul (m : Mem) (hdr_adr : Nat) : Nat := m hdr_adr

/-- `get_block_size`. -/
def get_block_size (m : Mem) (block_ptr : Nat) : Nat :=
  get_ul m (get_hdr block_ptr) >>> 2

/-- `get_next_block`: bound-checked in the implicit variant — returns null
once the region end is reached. -/
def get_next_block (st : St) (block_ptr : Nat) : Nat :=
  let next_block := block_ptr + get_block_size st.mem block_ptr + WIDTH
  if next_block < st.segment_end then next_block else 0

/-- `check_alloc`. -/
def check_alloc (m : Mem) (block_ptr : Nat) : Nat :=
  get_ul m (get_hdr block_ptr) &&& 1

/-- `round_up`: to a multiple of 8 (no 16-byte clamp in the implicit
variant). -/
def round_up (req_size : Nat) : Nat :=
  ((req_size + WIDTH - 1) % 2 ^ 64) &&& (2 ^ 64 - WIDTH)

/-- `set_hdr_size`. -/
def set_hdr_size (m : Mem) (block_ptr upd_size : Nat) : Mem :=
  store m (get_hdr block_ptr)
    ((get_ul m (get_hdr block_ptr) &&& 3) ||| ((upd_size <<< 2) % 2 ^ 64))

/-- `set_hdr_status`. -/
def set_hdr_status (m : Mem) (block_ptr status : Nat) : Mem :=
  store m (get_hdr block_ptr)
    ((get_ul m (get_hdr block_ptr) &&& (2 ^ 64 - 4)) ||| status)

/-- The loop of the implicit `first_fit`: walk forward for at most `nblocks`
blocks, returning null when no fitting free block is found. -/
def first_fit_go (st : St) (req_size : Nat) : Nat → Nat → Nat
  | 0, _ => 0
  | fuel + 1, curr_block =>
    if req_size ≤ get_block_size st.mem curr_block ∧
        check_alloc st.mem curr_block = 0 then
      curr_block
    else first_fit_go st req_size fuel (get_next_block st curr_block)

/-- `first_fit` starting at `start_block`. -/
def first_fit (st : St) (req_size : Nat) : Nat :=
  first_fit_go st req_size st.nblocks st.start_block

/-- `myinit`: unconditionally reset to one free block and return `true`. -/
def myinit (m : Mem) (heap_start heap_size : Nat) : Bool × St :=
  let m1 := store m heap_start ((sub64 heap_size WIDTH <<< 2) % 2 ^ 64)
  (true,
    { mem := m1
      segment_start := heap_start
      segment_end := heap_start + heap_size
      segment_size := heap_size
      nblocks := 1
      nused := 0
      bytes_used := 0
      start_block := heap_start + WIDTH })

/-- `mymalloc`: first fit; split off every positive remainder (including
zero-payload remainders) as a new free block. -/
def mymalloc (st : St) (req_size0 : Nat) : Nat × St :=
  if req_size0 = 0 then (0, st)
  else
    let req_size := round_up req_size0
    let alloc_block := first_fit st req_size
    if alloc_block ≠ 0 then
      let size_diff := sub64 (get_block_size st.mem alloc_block) req_size
      let m1 := set_hdr_status (set_hdr_size st.mem alloc_block req_size)
        alloc_block 1
      let st1 := { st with mem := m1 }
      let st2 :=
        if 0 < size_diff then
          let next_block := get_next_block st1 alloc_block
          let m2 := set_hdr_status (set_hdr_size st1.mem next_block
            (sub64 size_diff WIDTH)) next_block 0
          { st1 with mem := m2, nblocks := st1.nblocks + 1 }
        else st1
      (alloc_block,
        { st2 with
          nused := st2.nused + 1
          bytes_used := st2.bytes_used + (req_size + WIDTH) })
    else (0, st)

/-- `myfree`: clear the status bit and update the counters. -/
def myfree (st : St) (ptr : Nat) : St :=
  if ptr ≠ 0 then
    let st1 := { st with nused := sub64 st.nused 1 }
    let m1 := set_hdr_status st1.mem ptr 0
    { st1 with
      mem := m1
      bytes_used := sub64 st1.bytes_used (get_block_size m1 ptr + WIDTH) }
  else st

/-- `myrealloc`: unconditionally allocate-copy-free (after the null / zero
delegations). -/
def myrealloc (st : St) (old_ptr new_size : Nat) : Nat × St :=
  if old_ptr = 0 then mymalloc st new_size
  else if new_size = 0 then (0, myfree st old_ptr)
  else
    let res := mymalloc st new_size
    let new_ptr := res.1
    let m2 := memcpy res.2.mem new_ptr old_ptr new_size
    let st2 := myfree { res.2 with mem := m2 } old_ptr
    (new_ptr, st2)

end Implicit

/-! ## Abstraction layer: blocks, tiling, free-list chains -/

/-- Abstract view of one block: payload address, payload size, allocation
bit (`1` = allocated, `0` = free). -/
structure Blk where
  addr : Nat
  size : Nat
  alloc : Nat
deriving DecidableEq, Repr

namespace Explicit

/-- The implicit address-order walk of the explicit heap: read `n` block
descriptors starting at payload address `a`. -/
def walk (m : Mem) : Nat → Nat → List Blk
  | 0, _ => []
  | n + 1, a =>
    ⟨a, get_block_size m a, check_alloc m a⟩ :: walk m n (get_next_block m a)

/-- The walk of a state: `nblocks` blocks starting at `start_block`. -/
def blocks (st : St) : List Blk :=
  walk st.mem st.nblocks st.start_block

/-- `Tiles bs a e`: the blocks `bs` tile `[a - WIDTH, e)` gap-free, each block
contributing `WIDTH + size` bytes. -/
def Tiles : List Blk → Nat → Nat → Prop
  | [], a, e => a = e
  | b :: rest, a, e => b.addr = a ∧ Tiles rest (a + b.size + WIDTH) e

/-- Sum of `WIDTH + payload` over a block list (invariant I1 compares it to
the region size). -/
def sizeSum (bs : List Blk) : Nat :=
  (bs.map (fun b => WIDTH + b.size)).sum

/-- Number of allocated blocks in a list. -/
def countAlloc (bs : List Blk) : Nat :=
  (bs.filter (fun b => b.alloc == 1)).length

/-- Payload addresses of the free blocks of a list. -/
def freeAddrs (bs : List Blk) : List Nat :=
  (bs.filter (fun b => b.alloc == 0)).map (fun b => b.addr)

/-- The chain obtained by walking `prev_free` links from `a`, stopping at
null, for at most `fuel` steps. -/
def chain (m : Mem) : Nat → Nat → List Nat
  | 0, _ => []
  | fuel + 1, a => if a = 0 then [] else a :: chain m fuel (get_prev_free m a)

/-- The doubly-linked-list relation between an element and the one after it
in the backward (`prev_free`) order: walking from `last_free_block`, `x`
comes directly before `y` iff `prev_free(x) = y` and `next_free(y) = x`. -/
def dll (m : Mem) (x y : Nat) : Prop :=
  get_prev_free m x = y ∧ get_next_free m y = x

/-- `freelist m lf F`: `F` is the backward walk of the free list — its head
is `lf` (`last_free_block`), adjacent elements are doubly linked, the head's
`next_ptr` is null and the last element's `prev_ptr` is null.  The empty
list stands for `lf = 0`. -/
def freelist (m : Mem) (lf : Nat) (F : List Nat) : Prop :=
  (∀ x ∈ F, x ≠ 0) ∧
  List.Chain' (dll m) F ∧
  lf = F.headD 0 ∧
  get_next_free m (F.headD 0) = 0 ∧
  get_prev_free m (F.getLastD 0) = 0

/-- Full well-formedness of an explicit-allocator state, with the free list
`F` made explicit: the walk tiles the region, header words are well formed
(`4 * size + status`), payloads are at least 16 bytes and multiples of 8,
the counters agree with the walk, and `F` is a well-formed doubly-linked
list that enumerates exactly the free blocks of the walk. -/
structure WfF (st : St) (F : List Nat) : Prop where
  start_eq : st.start_block = st.segment_start + WIDTH
  bound : st.segment_start + st.segment_size + WIDTH ≤ 2 ^ 61
  tiled : Tiles (blocks st) st.start_block (st.segment_start + st.segment_size + WIDTH)
  hdr : ∀ b ∈ blocks st,
    st.mem (get_hdr b.addr) = 4 * b.size + b.alloc ∧ b.alloc ≤ 1 ∧
      16 ≤ b.size ∧ b.size % 8 = 0
  used : countAlloc (blocks st) = st.nused
  flist : freelist st.mem st.last_free_block F
  fperm : F.Perm (freeAddrs (blocks st))

/-- Well-formedness of an explicit-allocator state. -/
def Wf (st : St) : Prop := ∃ F, WfF st F

instance (m : Mem) : DecidableRel (dll m) := fun x y =>
  inferInstanceAs (Decidable (get_prev_free m x = y ∧ get_next_free m y = x))

end Explicit

namespace Implicit

/-- The address-order walk of the implicit heap (bound-checked successor). -/
def walk (st : St) : Nat → Nat → List Blk
  | 0, _ => []
  | n + 1, a =>
    ⟨a, get_block_size st.mem a, check_alloc st.mem a⟩ ::
      walk st (n) (get_next_block st a)

/-- The walk of a state. -/
def blocks (st : St) : List Blk :=
  walk st st.nblocks st.start_block

end Implicit

/-! ## Concrete executions

These closed states drive the counterexample theorems.  `zeroMem` models a
host whose memory is zero-filled; `junkMem2` additionally plants the single
word `8` at address 4112 — an address *outside* the 4096-byte region
`[0, 4096)` handed to `myinit`, hence host-owned memory the allocator has no
business reading. -/

def zeroMem : Mem := fun _ => 0

def junkMem2 : Mem := fun a => if a = 4112 then 8 else 0

/-- C1 run: `myinit(0, 4096); p = mymalloc(4088); myfree(p)` — `p` is the
region's final block, so `myfree` reads the word at address 4096 (one past
the region) as the neighbor's header. -/
def c1_s0 : Explicit.St := (Explicit.myinit zeroMem 0 4096).2

def c1_m : Nat × Explicit.St := Explicit.mymalloc c1_s0 4088

def c1_final : Explicit.St := Explicit.myfree c1_m.2 c1_m.1

/-- C2 run: `myinit(0, 4096); a = mymalloc(16); p = mymalloc(4056);
myfree(a); myfree(p)` over `junkMem2`. -/
def c2_s0 : Explicit.St := (Explicit.myinit junkMem2 0 4096).2

def c2_a : Nat × Explicit.St := Explicit.mymalloc c2_s0 16

def c2_p : Nat × Explicit.St := Explicit.mymalloc c2_a.2 4056

def c2_s3 : Explicit.St := Explicit.myfree c2_p.2 c2_a.1

def c2_final : Explicit.St := Explicit.myfree c2_s3 c2_p.1

/-- C3 run: `myinit(0, 4096); p = mymalloc(16); q = mymalloc(16); myfree(p);
myfree(q)`. -/
def c3_s0 : Explicit.St := (Explicit.myinit zeroMem 0 4096).2

def c3_p : Nat × Explicit.St := Explicit.mymalloc c3_s0 16

def c3_q : Nat × Explicit.St := Explicit.mymalloc c3_p.2 16

def c3_s3 : Explicit.St := Explicit.myfree c3_q.2 c3_p.1

def c3_final : Explicit.St := Explicit.myfree c3_s3 c3_q.1

/-- C7 run: `myinit(0, 4096); p = mymalloc(100); myrealloc(p, 32)`. -/
def c7_s0 : Explicit.St := (Explicit.myinit zeroMem 0 4096).2

def c7_p : Nat × Explicit.St := Explicit.mymalloc c7_s0 100

def c7_r : Nat × Explicit.St := Explicit.myrealloc c7_p.2 c7_p.1 32

/-- C5 run (implicit): `myinit(0, 4096); mymalloc(16); mymalloc(16);
myfree(first); mymalloc(8)` — the last call is served from the freed
16-byte block, with `delta = 8`. -/
def c5_s0 : Implicit.St := (Implicit.myinit zeroMem 0 4096).2

def c5_a : Nat × Implicit.St := Implicit.mymalloc c5_s0 16

def c5_b : Nat × Implicit.St := Implicit.mymalloc c5_a.2 16

def c5_s3 : Implicit.St := Implicit.myfree c5_b.2 c5_a.1

def c5_c : Nat × Implicit.St := Implicit.mymalloc c5_s3 8

/-- C6 run (implicit): `myinit(0, 4096); p = mymalloc(16); myrealloc(p, 8)`. -/
def c6_s0 : Implicit.St := (Implicit.myinit zeroMem 0 4096).2

def c6_p : Nat × Implicit.St := Implicit.mymalloc c6_s0 16

def c6_r : Nat × Implicit.St := Implicit.myrealloc c6_p.2 c6_p.1 8

/-- C6 explicit run for the `m = 0` corner: `myrealloc(p, 0)` on a live
allocation. -/
def c6_e : Nat × Explicit.St := Explicit.myrealloc c3_p.2 c3_p.1 0

/-- Host memory for the C9 run: junk outside the 4096-byte region only.
The word `4113` at address 4104 is read by the phantom coalesce as the
out-of-region neighbor's `prev_free` link; the word `32` at 4112 as its
`next_free` link; the word `16384 = 4096 << 2` at 4105 makes the misaligned
address 4113 look like a free block of payload 4096. -/
def junkMem9 : Mem := fun a =>
  if a = 4104 then 4113 else if a = 4112 then 32 else
  if a = 4105 then 16384 else 0

/-- C9 run: `myinit(0, 4096)`, four mallocs filling the region exactly,
`myfree` of the first two and of the final block (the latter coalesces with
the phantom out-of-region block, splicing the host word 4113 into the free
list), then `mymalloc(4032)`, which walks the corrupt list and returns the
misaligned pointer 4113. -/
def c9_s0 : Explicit.St := (Explicit.myinit junkMem9 0 4096).2

def c9_a : Nat × Explicit.St := Explicit.mymalloc c9_s0 16

def c9_b : Nat × Explicit.St := Explicit.mymalloc c9_a.2 16

def c9_c : Nat × Explicit.St := Explicit.mymalloc c9_b.2 16

def c9_d : Nat × Explicit.St := Explicit.mymalloc c9_c.2 4016

def c9_s5 : Explicit.St := Explicit.myfree c9_d.2 c9_a.1

def c9_s6 : Explicit.St := Explicit.myfree c9_s5 c9_b.1

def c9_s7 : Explicit.St := Explicit.myfree c9_s6 c9_d.1

def c9_final : Nat × Explicit.St := Explicit.mymalloc c9_s7 4032

/-! ## Header-word arithmetic

A well-formed header word has the shape `4 * size + status` with
`status < 4`; these lemmas relate the C bit operations to that shape. -/

theorem shl2_mod_eq (s : Nat) (hs : s < 2 ^ 62) : (s <<< 2) % 2 ^ 64 = 4 * s := by
  rw [Nat.shiftLeft_eq]
  have h4 : s * 2 ^ 2 = 4 * s := by ring
  rw [h4, Nat.mod_eq_of_lt (by omega)]

theorem hdr_shiftRight_eq (s t : Nat) (ht : t < 4) : (4 * s + t) >>> 2 = s := by
  rw [Nat.shiftRight_eq_div_pow]
  have h4 : (2 : Nat) ^ 2 = 4 := by norm_num
  rw [h4]
  omega

theorem mul4_shiftRight_eq (s : Nat) : (4 * s) >>> 2 = s := by
  have h := hdr_shiftRight_eq s 0 (by norm_num)
  simpa using h

theorem hdr_and_one_eq (s t : Nat) : (4 * s + t) &&& 1 = t % 2 := by
  rw [Nat.and_one_is_mod]
  omega

theorem mul4_and_one_eq (s : Nat) : (4 * s) &&& 1 = 0 := by
  have h := hdr_and_one_eq s 0
  simpa using h

theorem hdr_and_three_eq (s t : Nat) (ht : t < 4) : (4 * s + t) &&& 3 = t := by
  have h := Nat.and_pow_two_sub_one_eq_mod (4 * s + t) 2
  norm_num at h
  rw [h]
  omega

theorem lor_low_eq (s t : Nat) (ht : t < 4) : t ||| 4 * s = 4 * s + t := by
  apply Nat.eq_of_testBit_eq
  intro i
  have h4 : (4 * s + t : Nat) = 2 ^ 2 * s + t := by ring
  have h4b : (4 * s : Nat) = 2 ^ 2 * s + 0 := by ring
  have ht2 : t < 2 ^ 2 := by omega
  have h02 : (0 : Nat) < 2 ^ 2 := by omega
  rw [Nat.testBit_lor, h4, @Nat.testBit_mul_pow_two_add s t 2 ht2,
    h4b, @Nat.testBit_mul_pow_two_add s 0 2 h02]
  by_cases hi : i < 2
  · simp [hi]
  · have h4le : (4 : Nat) ≤ 2 ^ i := by
      calc (4 : Nat) = 2 ^ 2 := by norm_num
        _ ≤ 2 ^ i := Nat.pow_le_pow_right (by norm_num) (by omega)
    have htb : t.testBit i = false := Nat.testBit_lt_two_pow (lt_of_lt_of_le ht h4le)
    simp [hi, htb]

theorem lor_low_eq2 (s t : Nat) (ht : t < 4) : 4 * s ||| t = 4 * s + t := by
  rw [Nat.lor_comm]
  exact lor_low_eq s t ht

theorem and_hi_mask_eq (s t : Nat) (ht : t < 4) (hs : s < 2 ^ 62) :
    (4 * s + t) &&& (2 ^ 64 - 4) = 4 * s := by
  apply Nat.eq_of_testBit_eq
  intro i
  have hmask : (2 ^ 64 - 4 : Nat) = (2 ^ 62 - 1) <<< 2 := by
    rw [Nat.shiftLeft_eq]; norm_num
  have h4 : (4 * s + t : Nat) = 2 ^ 2 * s + t := by ring
  have h4b : (4 * s : Nat) = 2 ^ 2 * s + 0 := by ring
  have ht2 : t < 2 ^ 2 := by omega
  have h02 : (0 : Nat) < 2 ^ 2 := by omega
  rw [Nat.testBit_land, hmask, Nat.testBit_shiftLeft, Nat.testBit_two_pow_sub_one,
    h4, @Nat.testBit_mul_pow_two_add s t 2 ht2,
    h4b, @Nat.testBit_mul_pow_two_add s 0 2 h02]
  by_cases hi : i < 2
  · have h2 : ¬(i ≥ 2) := by omega
    simp [hi, h2]
  · by_cases hi64 : i < 64
    · have h2 : i ≥ 2 := by omega
      have h3 : i - 2 < 62 := by omega
      simp [hi, h2, h3]
    · have hle : (2 : Nat) ^ 62 ≤ 2 ^ (i - 2) :=
        Nat.pow_le_pow_right (by norm_num) (by omega)
      have hsb : s.testBit (i - 2) = false :=
        Nat.testBit_lt_two_pow (lt_of_lt_of_le hs hle)
      simp [hi, hsb]

theorem and_hi_mask8_eq (q t : Nat) (ht : t < 8) (hq : q < 2 ^ 61) :
    (8 * q + t) &&& (2 ^ 64 - 8) = 8 * q := by
  apply Nat.eq_of_testBit_eq
  intro i
  have hmask : (2 ^ 64 - 8 : Nat) = (2 ^ 61 - 1) <<< 3 := by
    rw [Nat.shiftLeft_eq]; norm_num
  have h8 : (8 * q + t : Nat) = 2 ^ 3 * q + t := by ring
  have h8b : (8 * q : Nat) = 2 ^ 3 * q + 0 := by ring
  have ht2 : t < 2 ^ 3 := by omega
  have h02 : (0 : Nat) < 2 ^ 3 := by omega
  rw [Nat.testBit_land, hmask, Nat.testBit_shiftLeft, Nat.testBit_two_pow_sub_one,
    h8, @Nat.testBit_mul_pow_two_add q t 3 ht2,
    h8b, @Nat.testBit_mul_pow_two_add q 0 3 h02]
  by_cases hi : i < 3
  · have h2 : ¬(i ≥ 3) := by omega
    simp [hi, h2]
  · by_cases hi64 : i < 64
    · have h2 : i ≥ 3 := by omega
      have h3 : i - 3 < 61 := by omega
      simp [hi, h2, h3]
    · have hle : (2 : Nat) ^ 61 ≤ 2 ^ (i - 3) :=
        Nat.pow_le_pow_right (by norm_num) (by omega)
      have hsb : q.testBit (i - 3) = false :=
        Nat.testBit_lt_two_pow (lt_of_lt_of_le hq hle)
      simp [hi, hsb]

/-! ## Explicit-heap toolkit -/

namespace Explicit

theorem walk_length (m : Mem) (n a : Nat) : (walk m n a).length = n := by
  induction n generalizing a with
  | zero => rfl
  | succ k ih => simp [walk, ih]

/-- If the header cells encode the block list `bs` and `bs` tiles from `a`,
then the walk of length `bs.length` reads back exactly `bs`. -/
theorem walk_eq_of_hdr (m : Mem) (bs : List Blk) (a e : Nat)
    (ht : Tiles bs a e)
    (hh : ∀ b ∈ bs, m (get_hdr b.addr) = 4 * b.size + b.alloc ∧ b.alloc ≤ 1) :
    walk m bs.length a = bs := by
  induction bs generalizing a with
  | nil => rfl
  | cons b rest ih =>
    obtain ⟨addr, size, alloc⟩ := b
    obtain ⟨haddr, ht2⟩ := ht
    simp only at haddr
    subst haddr
    obtain ⟨hw, hle⟩ := hh ⟨addr, size, alloc⟩ (by simp)
    simp only at hw hle
    have hsz : get_block_size m addr = size := by
      rw [get_block_size, hw, hdr_shiftRight_eq _ _ (by omega)]
    have hal : check_alloc m addr = alloc := by
      rw [check_alloc, hw, hdr_and_one_eq]
      omega
    have hnx : get_next_block m addr = addr + size + WIDTH := by
      rw [get_next_block, hsz]
    simp only [List.length_cons, walk, hsz, hal, hnx, List.cons.injEq]
    exact ⟨trivial, ih (addr + size + WIDTH) ht2 (fun c hc => hh c (by simp [hc]))⟩

theorem tiles_append_intro (xs ys : List Blk) (a mid e : Nat)
    (h1 : Tiles xs a mid) (h2 : Tiles ys mid e) : Tiles (xs ++ ys) a e := by
  induction xs generalizing a with
  | nil => simpa [Tiles] using h1 ▸ h2
  | cons b rest ih =>
    obtain ⟨haddr, h1b⟩ := h1
    exact ⟨haddr, ih _ h1b⟩

theorem tiles_append_elim (xs ys : List Blk) (a e : Nat)
    (h : Tiles (xs ++ ys) a e) : ∃ mid, Tiles xs a mid ∧ Tiles ys mid e := by
  induction xs generalizing a with
  | nil => exact ⟨a, rfl, h⟩
  | cons b rest ih =>
    obtain ⟨haddr, h2⟩ := h
    obtain ⟨mid, hm1, hm2⟩ := ih _ h2
    exact ⟨mid, ⟨haddr, hm1⟩, hm2⟩

theorem tiles_end_ge (bs : List Blk) (a e : Nat) (h : Tiles bs a e) : a ≤ e := by
  induction bs generalizing a with
  | nil => exact le_of_eq h
  | cons b rest ih =>
    obtain ⟨_, h2⟩ := h
    have := ih _ h2
    omega

theorem tiles_bounds (bs : List Blk) (a e : Nat) (h : Tiles bs a e) :
    ∀ b ∈ bs, a ≤ b.addr ∧ b.addr + b.size + WIDTH ≤ e := by
  induction bs generalizing a with
  | nil => simp
  | cons c rest ih =>
    obtain ⟨haddr, h2⟩ := h
    intro b hb
    rcases List.mem_cons.mp hb with hb | hb
    · subst hb
      have := tiles_end_ge rest _ _ h2
      omega
    · have := ih _ h2 b hb
      omega

theorem tiles_pairwise (bs : List Blk) (a e : Nat) (h : Tiles bs a e) :
    bs.Pairwise (fun b c => b.addr + b.size + WIDTH ≤ c.addr) := by
  induction bs generalizing a with
  | nil => exact List.Pairwise.nil
  | cons c rest ih =>
    obtain ⟨haddr, h2⟩ := h
    refine List.Pairwise.cons ?_ (ih _ h2)
    intro b hb
    have := (tiles_bounds rest _ _ h2 b hb).1
    omega

theorem tiles_addr_mod (bs : List Blk) (a e : Nat) (h : Tiles bs a e)
    (hsz : ∀ b ∈ bs, b.size % 8 = 0) : ∀ b ∈ bs, b.addr % 8 = a % 8 := by
  induction bs generalizing a with
  | nil => simp
  | cons c rest ih =>
    obtain ⟨haddr, h2⟩ := h
    intro b hb
    rcases List.mem_cons.mp hb with hb | hb
    · subst hb; omega
    · have hc := hsz c (by simp)
      have := ih _ h2 (fun b hb => hsz b (by simp [hb])) b hb
      simp only [WIDTH] at this
      omega

theorem tiles_sizeSum (bs : List Blk) (a e : Nat) (h : Tiles bs a e) :
    a + sizeSum bs = e := by
  induction bs generalizing a with
  | nil => simpa [sizeSum] using h
  | cons c rest ih =>
    obtain ⟨haddr, h2⟩ := h
    have := ih _ h2
    simp only [sizeSum, List.map_cons, List.sum_cons] at *
    omega

theorem tiles_length_le (bs : List Blk) (a e : Nat) (h : Tiles bs a e)
    (hs : ∀ b ∈ bs, 16 ≤ b.size) : a + 24 * bs.length ≤ e := by
  induction bs generalizing a with
  | nil => simpa using le_of_eq h
  | cons c rest ih =>
    obtain ⟨haddr, h2⟩ := h
    have h1 := hs c (by simp)
    have := ih _ h2 (fun b hb => hs b (by simp [hb]))
    simp only [List.length_cons, WIDTH] at *
    omega

theorem countAlloc_append (xs ys : List Blk) :
    countAlloc (xs ++ ys) = countAlloc xs + countAlloc ys := by
  simp [countAlloc, List.filter_append]

theorem freeAddrs_append (xs ys : List Blk) :
    freeAddrs (xs ++ ys) = freeAddrs xs ++ freeAddrs ys := by
  simp [freeAddrs, List.filter_append]

theorem countAlloc_cons (b : Blk) (bs : List Blk) :
    countAlloc (b :: bs) = (if b.alloc = 1 then 1 else 0) + countAlloc bs := by
  simp only [countAlloc, List.filter_cons]
  split_ifs with h1 h2 h3 <;> simp_all
  omega

theorem freeAddrs_cons (b : Blk) (bs : List Blk) :
    freeAddrs (b :: bs) = (if b.alloc = 0 then [b.addr] else []) ++ freeAddrs bs := by
  simp only [freeAddrs, List.filter_cons]
  split_ifs with h1 h2 h3 <;> simp_all

/-- Characterization of the explicit `round_up`. -/
theorem round_up_spec (r : Nat) (hr : r ≤ 2 ^ 61) :
    r ≤ round_up r ∧ round_up r % 8 = 0 ∧ 16 ≤ round_up r ∧
      round_up r ≤ 2 ^ 61 ∧
      (1 ≤ r → round_up r ≤ r + 15) ∧
      ∀ c, r ≤ c → c % 8 = 0 → 16 ≤ c → round_up r ≤ c := by
  have h7 : (r + WIDTH - 1) % 2 ^ 64 = r + 7 := by
    simp only [WIDTH]
    omega
  have hq : r + 7 = 8 * ((r + 7) / 8) + (r + 7) % 8 := by omega
  have hmask : (r + 7) &&& (2 ^ 64 - 8) = 8 * ((r + 7) / 8) := by
    conv_lhs => rw [hq]
    exact and_hi_mask8_eq _ _ (by omega) (by omega)
  have hru : round_up r = if 8 * ((r + 7) / 8) < 16 then 16 else 8 * ((r + 7) / 8) := by
    simp only [round_up, WIDTH] at h7 ⊢
    rw [h7, hmask]
  rw [hru]
  split_ifs with h16
  · exact ⟨by omega, by omega, by omega, by omega, fun h1 => by omega,
      fun c h1 h2 h3 => by omega⟩
  · exact ⟨by omega, by omega, by omega, by omega, fun h1 => by omega,
      fun c h1 h2 h3 => by omega⟩

/-! ### Reading memory through the setters -/

theorem set_prev_ptr_read (m : Mem) (x v c : Nat)
    (h : x = 0 ∨ c ≠ get_hdr x + WIDTH) : set_prev_ptr m x v c = m c := by
  unfold set_prev_ptr
  rcases h with h | h
  · simp [h]
  · split_ifs with hx
    · exact store_ne _ _ _ _ h
    · rfl

theorem set_prev_ptr_at (m : Mem) (x v : Nat) (hx : x ≠ 0) :
    set_prev_ptr m x v (get_hdr x + WIDTH) = v := by
  simp [set_prev_ptr, hx, store_eq]

theorem set_next_ptr_read (m : Mem) (x v c : Nat)
    (h : x = 0 ∨ c ≠ get_hdr x + 2 * WIDTH) : set_next_ptr m x v c = m c := by
  unfold set_next_ptr
  rcases h with h | h
  · simp [h]
  · split_ifs with hx
    · exact store_ne _ _ _ _ h
    · rfl

theorem set_next_ptr_at (m : Mem) (x v : Nat) (hx : x ≠ 0) :
    set_next_ptr m x v (get_hdr x + 2 * WIDTH) = v := by
  simp [set_next_ptr, hx, store_eq]

theorem set_hdr_size_read (m : Mem) (b s c : Nat) (h : c ≠ get_hdr b) :
    set_hdr_size m b s c = m c :=
  store_ne _ _ _ _ h

theorem set_hdr_status_read (m : Mem) (b s c : Nat) (h : c ≠ get_hdr b) :
    set_hdr_status m b s c = m c :=
  store_ne _ _ _ _ h

/-- Writing a new size into a well-formed header keeps the status bits. -/
theorem set_hdr_size_word (m : Mem) (b s0 t s2 : Nat)
    (hm : m (get_hdr b) = 4 * s0 + t) (ht : t < 4) (hs : s2 < 2 ^ 62) :
    set_hdr_size m b s2 (get_hdr b) = 4 * s2 + t := by
  unfold set_hdr_size
  rw [store_eq, hm, hdr_and_three_eq _ _ ht, shl2_mod_eq _ hs, lor_low_eq _ _ ht]

/-- Writing a new status into a well-formed header keeps the size bits. -/
theorem set_hdr_status_word (m : Mem) (b s0 t u : Nat)
    (hm : m (get_hdr b) = 4 * s0 + t) (ht : t < 4) (hs : s0 < 2 ^ 62) (hu : u < 4) :
    set_hdr_status m b u (get_hdr b) = 4 * s0 + u := by
  unfold set_hdr_status
  rw [store_eq, hm, and_hi_mask_eq _ _ ht hs, lor_low_eq2 _ _ hu]

theorem get_hdr_add_width (b : Nat) (h : 8 ≤ b) :
    get_hdr b + WIDTH = b ∧ get_hdr b + 2 * WIDTH = b + 8 := by
  simp only [get_hdr, WIDTH]
  omega

theorem get_prev_free_nz (m : Mem) (x : Nat) (hx : x ≠ 0) :
    get_prev_free m x = m (get_hdr x + WIDTH) := by
  simp [get_prev_free, hx]

theorem get_next_free_nz (m : Mem) (x : Nat) (hx : x ≠ 0) :
    get_next_free m x = m (get_hdr x + 2 * WIDTH) := by
  simp [get_next_free, hx]

/-! ### Facts derived from well-formedness -/

theorem blocks_length (st : St) : (blocks st).length = st.nblocks :=
  walk_length _ _ _

theorem pairwise_mem_or {α : Type} {R : α → α → Prop} {l : List α} {a b : α}
    (h : l.Pairwise R) (ha : a ∈ l) (hb : b ∈ l) : a = b ∨ R a b ∨ R b a := by
  induction l with
  | nil => simp at ha
  | cons c rest ih =>
    rcases List.mem_cons.mp ha with ha1 | ha1 <;> rcases List.mem_cons.mp hb with hb1 | hb1
    · left; rw [ha1, hb1]
    · subst ha1
      exact Or.inr (Or.inl ((List.pairwise_cons.mp h).1 b hb1))
    · subst hb1
      exact Or.inr (Or.inr ((List.pairwise_cons.mp h).1 a ha1))
    · exact ih (List.pairwise_cons.mp h).2 ha1 hb1

theorem WfF.block_bounds {st : St} {F : List Nat} (h : WfF st F) (b : Blk)
    (hb : b ∈ blocks st) :
    st.segment_start + WIDTH ≤ b.addr ∧
      b.addr + b.size + WIDTH ≤ st.segment_start + st.segment_size + WIDTH := by
  have := tiles_bounds _ _ _ h.tiled b hb
  rw [h.start_eq] at this
  exact this

theorem WfF.addr_lo {st : St} {F : List Nat} (h : WfF st F) (b : Blk)
    (hb : b ∈ blocks st) : 8 ≤ b.addr := by
  have := (h.block_bounds b hb).1
  simp only [WIDTH] at this
  omega

theorem WfF.size_lt {st : St} {F : List Nat} (h : WfF st F) (b : Blk)
    (hb : b ∈ blocks st) : b.size < 2 ^ 61 := by
  have h1 := (h.block_bounds b hb).2
  have h2 := h.bound
  simp only [WIDTH] at h1 h2
  omega

/-- Two walk blocks with different addresses have separated extents. -/
theorem WfF.sep2 {st : St} {F : List Nat} (h : WfF st F) (b c : Blk)
    (hb : b ∈ blocks st) (hc : c ∈ blocks st) (hne : b.addr ≠ c.addr) :
    b.addr + b.size + WIDTH ≤ c.addr ∨ c.addr + c.size + WIDTH ≤ b.addr := by
  have hp := tiles_pairwise _ _ _ h.tiled
  rcases pairwise_mem_or hp hb hc with he | hR | hR
  · exact absurd (congrArg Blk.addr he) hne
  · exact Or.inl hR
  · exact Or.inr hR

/-- Two distinct walk blocks are distinct blocks (their values differ
nowhere except as listed): same address forces equality. -/
theorem WfF.addr_inj {st : St} {F : List Nat} (h : WfF st F) (b c : Blk)
    (hb : b ∈ blocks st) (hc : c ∈ blocks st) (he : b.addr = c.addr) : b = c := by
  have hp := tiles_pairwise _ _ _ h.tiled
  rcases pairwise_mem_or hp hb hc with h1 | h1 | h1
  · exact h1
  · simp only [WIDTH] at h1; omega
  · simp only [WIDTH] at h1; omega

/-- Every free-list member is the address of a free walk block. -/
theorem WfF.free_mem {st : St} {F : List Nat} (h : WfF st F) (f : Nat)
    (hf : f ∈ F) : ∃ b ∈ blocks st, b.addr = f ∧ b.alloc = 0 := by
  have := h.fperm.mem_iff.mp hf
  simp only [freeAddrs, List.mem_map, List.mem_filter] at this
  obtain ⟨b, ⟨hb, hba⟩, hbf⟩ := this
  exact ⟨b, hb, hbf, by simpa using hba⟩

/-- The head of a nonempty free list is `last_free_block`; an empty free
list means `last_free_block = 0`. -/
theorem WfF.lf_cases {st : St} {F : List Nat} (h : WfF st F) :
    (st.last_free_block = 0 ∧ F = []) ∨
      (st.last_free_block ∈ F ∧ st.last_free_block ≠ 0) := by
  obtain ⟨hnz, _, hhead, _, _⟩ := h.flist
  cases F with
  | nil => exact Or.inl ⟨hhead, rfl⟩
  | cons f F2 =>
    right
    simp only [List.headD_cons] at hhead
    subst hhead
    exact ⟨by simp, hnz _ (by simp)⟩

theorem chain_adj {α : Type} {R : α → α → Prop} {l1 l2 : List α} {a b : α}
    (h : List.Chain' R (l1 ++ a :: b :: l2)) : R a b := by
  have h2 := (List.chain'_append.mp h).2.1
  exact (List.chain'_cons.mp h2).1

/-- The link words of the free-list node `x` at position `A ++ x :: B`. -/
theorem freelist_split_eqs (m : Mem) (lf : Nat) (F A B : List Nat) (x : Nat)
    (hf : freelist m lf F) (hF : F = A ++ x :: B) :
    get_prev_free m x = B.headD 0 ∧ get_next_free m x = A.getLastD 0 := by
  obtain ⟨hnz, hch, hhead, hnext, hprev⟩ := hf
  subst hF
  constructor
  · cases B with
    | nil =>
      have hlast : (A ++ [x]).getLastD 0 = x := by
        simp [List.getLastD_concat]
      rw [hlast] at hprev
      simpa using hprev
    | cons c B2 =>
      have := chain_adj hch
      simpa using this.1
  · rcases List.eq_nil_or_concat A with hA | ⟨A2, a, hA⟩
    · subst hA
      simpa using hnext
    · subst hA
      simp only [List.concat_eq_append] at hch ⊢
      have hre : A2 ++ [a] ++ x :: B = A2 ++ a :: x :: B := by simp
      rw [hre] at hch
      have := chain_adj hch
      have hlast : (A2 ++ [a]).getLastD 0 = a := by simp [List.getLastD_concat]
      rw [hlast]
      exact this.2

theorem upd_last_free_block_mem (st : St) (c n : Nat) :
    (upd_last_free_block st c n).mem = st.mem ∧
      (upd_last_free_block st c n).nblocks = st.nblocks ∧
      (upd_last_free_block st c n).nused = st.nused ∧
      (upd_last_free_block st c n).segment_start = st.segment_start ∧
      (upd_last_free_block st c n).segment_size = st.segment_size ∧
      (upd_last_free_block st c n).start_block = st.start_block := by
  unfold upd_last_free_block
  split_ifs <;> exact ⟨rfl, rfl, rfl, rfl, rfl, rfl⟩

theorem WfF.nblocks_lt {st : St} {F : List Nat} (h : WfF st F) :
    st.nblocks < 2 ^ 61 := by
  have h1 := tiles_length_le _ _ _ h.tiled (fun b hb => (h.hdr b hb).2.2.1)
  rw [blocks_length] at h1
  have h2 := h.bound
  omega

theorem countAlloc_le_length (bs : List Blk) : countAlloc bs ≤ bs.length :=
  List.length_filter_le _ _

theorem WfF.nused_le {st : St} {F : List Nat} (h : WfF st F) :
    st.nused ≤ st.nblocks := by
  have h1 := countAlloc_le_length (blocks st)
  rw [h.used, blocks_length] at h1
  exact h1

theorem countAlloc_pos (bs : List Blk) (b : Blk) (hb : b ∈ bs) (ha : b.alloc = 1) :
    1 ≤ countAlloc bs := by
  have : b ∈ bs.filter (fun b => b.alloc == 1) :=
    List.mem_filter.mpr ⟨hb, by simp [ha]⟩
  have := List.length_pos.mpr (List.ne_nil_of_mem this)
  simpa [countAlloc] using this

/-- The address of a free walk block is on the free list. -/
theorem WfF.free_addr_mem {st : St} {F : List Nat} (h : WfF st F) (b : Blk)
    (hb : b ∈ blocks st) (ha : b.alloc = 0) : b.addr ∈ F := by
  refine h.fperm.mem_iff.mpr ?_
  simp only [freeAddrs, List.mem_map, List.mem_filter]
  exact ⟨b, ⟨hb, by simp [ha]⟩, rfl⟩

/-- The link words of a free-list node are null or free-list members. -/
theorem WfF.links_mem {st : St} {F : List Nat} (h : WfF st F) (x : Nat)
    (hx : x ∈ F) :
    (get_prev_free st.mem x = 0 ∨ get_prev_free st.mem x ∈ F) ∧
      (get_next_free st.mem x = 0 ∨ get_next_free st.mem x ∈ F) := by
  obtain ⟨A, B, hAB⟩ := List.append_of_mem hx
  obtain ⟨hp, hn⟩ := freelist_split_eqs st.mem _ F A B x h.flist hAB
  constructor
  · rw [hp]
    cases B with
    | nil => exact Or.inl rfl
    | cons c B2 => exact Or.inr (by rw [hAB]; simp)
  · rw [hn]
    rcases List.eq_nil_or_concat A with hA | ⟨A2, a, hA⟩
    · subst hA; exact Or.inl rfl
    · subst hA
      right
      rw [hAB]
      simp [List.getLastD_concat]

/-- A free-list member's extent is separated from every allocated block. -/
theorem WfF.free_sep {st : St} {F : List Nat} (h : WfF st F) (x : Nat)
    (hx : x ∈ F) (b : Blk) (hb : b ∈ blocks st) (hal : b.alloc = 1) :
    8 ≤ x ∧ (x + 24 ≤ b.addr ∨ b.addr + b.size + 8 ≤ x) := by
  obtain ⟨bf, hbf, hbfa, hbff⟩ := h.free_mem x hx
  have h8 : 8 ≤ x := hbfa ▸ h.addr_lo bf hbf
  have h16 : 16 ≤ bf.size := (h.hdr bf hbf).2.2.1
  have hne : bf.addr ≠ b.addr := by
    intro he
    have := h.addr_inj bf b hbf hb he
    rw [this] at hbff
    omega
  have := h.sep2 bf b hbf hb hne
  simp only [WIDTH] at this
  rw [hbfa] at this
  omega

theorem and_three_lt (n : Nat) : n &&& 3 < 4 := by
  have h := Nat.and_pow_two_sub_one_eq_mod n 2
  norm_num at h
  omega

theorem WfF.nodupF {st : St} {F : List Nat} (h : WfF st F) : F.Nodup := by
  have hp := tiles_pairwise _ _ _ h.tiled
  have hp2 : (blocks st).Pairwise (fun b c => b.addr ≠ c.addr) := by
    refine hp.imp ?_
    intro b c hbc
    simp only [WIDTH] at hbc
    omega
  have hp3 := hp2.filter (fun b => b.alloc == 0)
  have hnd : (freeAddrs (blocks st)).Nodup := by
    simp only [freeAddrs]
    exact List.Pairwise.map _ (fun b c hbc => hbc) hp3
  exact h.fperm.nodup_iff.mpr hnd

/-- The link words of a free-list node are null or *other* free-list
members. -/
theorem WfF.links_mem_ne {st : St} {F : List Nat} (h : WfF st F) (x : Nat)
    (hx : x ∈ F) :
    (get_prev_free st.mem x = 0 ∨
      (get_prev_free st.mem x ∈ F ∧ get_prev_free st.mem x ≠ x)) ∧
      (get_next_free st.mem x = 0 ∨
        (get_next_free st.mem x ∈ F ∧ get_next_free st.mem x ≠ x)) := by
  have hnd := h.nodupF
  obtain ⟨A, B, hAB⟩ := List.append_of_mem hx
  obtain ⟨hp, hn⟩ := freelist_split_eqs st.mem _ F A B x h.flist hAB
  have hxB : x ∉ B := by
    rw [hAB] at hnd
    have := (List.nodup_append.mp hnd).2.1
    exact (List.nodup_cons.mp this).1
  have hxA : x ∉ A := by
    rw [hAB] at hnd
    have := (List.nodup_append.mp hnd).2.2
    intro hmem
    exact this hmem (by simp)
  constructor
  · rw [hp]
    cases B with
    | nil => exact Or.inl rfl
    | cons c B2 =>
      refine Or.inr ⟨by rw [hAB]; simp, ?_⟩
      intro he
      exact hxB (by rw [← he]; simp)
  · rw [hn]
    rcases List.eq_nil_or_concat A with hA | ⟨A2, a, hA⟩
    · subst hA; exact Or.inl rfl
    · subst hA
      refine Or.inr ⟨by rw [hAB]; simp [List.getLastD_concat], ?_⟩
      simp only [List.concat_eq_append, List.getLastD_concat]
      intro he
      exact hxA (by rw [← he]; simp)

/-- Two distinct free-list members have separated extents. -/
theorem WfF.free_free_sep {st : St} {F : List Nat} (h : WfF st F) (x y : Nat)
    (hx : x ∈ F) (hy : y ∈ F) (hxy : x ≠ y) :
    8 ≤ x ∧ 8 ≤ y ∧ (x + 24 ≤ y ∨ y + 24 ≤ x) := by
  obtain ⟨bx, hbx, hbxa, hbxf⟩ := h.free_mem x hx
  obtain ⟨by2, hby, hbya, hbyf⟩ := h.free_mem y hy
  have h8x : 8 ≤ x := hbxa ▸ h.addr_lo bx hbx
  have h8y : 8 ≤ y := hbya ▸ h.addr_lo by2 hby
  have h16x : 16 ≤ bx.size := (h.hdr bx hbx).2.2.1
  have h16y : 16 ≤ by2.size := (h.hdr by2 hby).2.2.1
  have hne : bx.addr ≠ by2.addr := by rw [hbxa, hbya]; exact hxy
  have := h.sep2 bx by2 hbx hby hne
  simp only [WIDTH] at this
  rw [hbxa, hbya] at this
  exact ⟨h8x, h8y, by omega⟩

/-- The free-list link cells (`prev_free`/`next_free` words) of a free block
`x` are disjoint from the whole extent of a different free block `y`. -/
theorem WfF.free_link_cells_sep {st : St} {F : List Nat} (h : WfF st F)
    (x y : Nat) (hx : x ∈ F) (hy : y ∈ F) (hxy : x ≠ y) :
    ∀ c, y - 8 ≤ c → c < y + get_block_size st.mem y →
      c ≠ get_hdr x + WIDTH ∧ c ≠ get_hdr x + 2 * WIDTH := by
  obtain ⟨bx, hbx, hbxa, hbxf⟩ := h.free_mem x hx
  obtain ⟨by2, hby, hbya, hbyf⟩ := h.free_mem y hy
  have h8x : 8 ≤ x := hbxa ▸ h.addr_lo bx hbx
  have h8y : 8 ≤ y := hbya ▸ h.addr_lo by2 hby
  have h16x : 16 ≤ bx.size := (h.hdr bx hbx).2.2.1
  have hwy := (h.hdr by2 hby).1
  rw [hbyf] at hwy
  have hszy : get_block_size st.mem y = by2.size := by
    rw [← hbya, get_block_size, hwy, hdr_shiftRight_eq _ _ (by norm_num)]
  have hne : bx.addr ≠ by2.addr := by rw [hbxa, hbya]; exact hxy
  have hsep := h.sep2 bx by2 hbx hby hne
  rw [hbxa, hbya] at hsep
  intro c hc1 hc2
  rw [hszy] at hc2
  simp only [get_hdr, WIDTH] at hsep ⊢
  omega

/-! ### The first-fit search over a well-formed free list -/

theorem first_fit_loop_spec (m : Mem) (r : Nat) :
    ∀ F : List Nat, (∀ x ∈ F, x ≠ 0) → List.Chain' (dll m) F →
      get_prev_free m (F.getLastD 0) = 0 →
      first_fit_loop m r F.length (F.headD 0) = 0 ∨
      ∃ A B res, F = A ++ res :: B ∧
        first_fit_loop m r F.length (F.headD 0) = res ∧
        r ≤ get_block_size m res ∧ check_alloc m res = 0 := by
  intro F
  induction F with
  | nil => intro _ _ _; left; rfl
  | cons f F2 ih =>
    intro hnz hch hlast
    simp only [List.length_cons, List.headD_cons, first_fit_loop]
    split_ifs with hfit
    · exact Or.inr ⟨[], F2, f, by simp, rfl, hfit.1, hfit.2⟩
    · cases F2 with
      | nil =>
        simp only [List.getLastD_cons, List.getLastD_nil] at hlast
        left
        simp [first_fit_loop, hlast]
      | cons g F3 =>
        have hdll : dll m f g := (List.chain'_cons.mp hch).1
        have hprev : get_prev_free m f = g := hdll.1
        have hlast2 : get_prev_free m ((g :: F3).getLastD 0) = 0 := by
          simpa using hlast
        have hrec := ih (fun x hx => hnz x (by simp [hx]))
          (List.chain'_cons.mp hch).2 hlast2
        simp only [List.headD_cons, List.length_cons] at hrec
        rw [hprev]
        rcases hrec with hrec | ⟨A, B, res, hF, hres, hr1, hr2⟩
        · left; exact hrec
        · right
          exact ⟨f :: A, B, res, by simp [hF], hres, hr1, hr2⟩

theorem countAlloc_add_free_length (bs : List Blk) (hle : ∀ b ∈ bs, b.alloc ≤ 1) :
    countAlloc bs + (freeAddrs bs).length = bs.length := by
  induction bs with
  | nil => rfl
  | cons b rest ih =>
    have hb := hle b (by simp)
    have ihr := ih (fun c hc => hle c (by simp [hc]))
    rw [countAlloc_cons, freeAddrs_cons]
    rcases Nat.le_one_iff_eq_zero_or_eq_one.mp hb with h0 | h1
    · simp [h0]
      omega
    · simp [h1]
      omega

theorem WfF.fuel_eq {st : St} {F : List Nat} (h : WfF st F) :
    sub64 st.nblocks st.nused = F.length := by
  have hlen : F.length = (freeAddrs (blocks st)).length := h.fperm.length_eq
  have hsum := countAlloc_add_free_length (blocks st) (fun b hb => (h.hdr b hb).2.1)
  rw [h.used, blocks_length] at hsum
  have h64 : st.nblocks < 2 ^ 64 := by
    have := h.nblocks_lt
    omega
  rw [sub64_eq_sub _ _ (by omega) h64]
  omega

/-- `first_fit` on a well-formed heap returns null or a fitting free-list
member (at an explicit position of the list). -/
theorem WfF.first_fit_eq {st : St} {F : List Nat} (h : WfF st F) (r : Nat) :
    first_fit st r = 0 ∨
      ∃ A B, F = A ++ first_fit st r :: B ∧ first_fit st r ≠ 0 ∧
        r ≤ get_block_size st.mem (first_fit st r) ∧
        check_alloc st.mem (first_fit st r) = 0 := by
  obtain ⟨hnz, hch, hhead, hnext, hprev⟩ := h.flist
  have hloop := first_fit_loop_spec st.mem r F hnz hch hprev
  have hff : first_fit st r = first_fit_loop st.mem r F.length (F.headD 0) := by
    rw [first_fit, h.fuel_eq, hhead]
  rcases hloop with hz | ⟨A, B, res, hF, hres, hr1, hr2⟩
  · left
    rw [hff, hz]
  · right
    have hresval : first_fit st r = res := by rw [hff, hres]
    refine ⟨A, B, by rw [hresval]; exact hF, ?_, ?_, ?_⟩
    · rw [hresval]
      exact hnz res (by rw [hF]; simp)
    · rw [hresval]; exact hr1
    · rw [hresval]; exact hr2

/-- C5 (corrected: the policy holds for the explicit variant only; the
implicit variant splits at every positive remainder): a successful explicit
`mymalloc` is served from a free block `b` with `round_up req ≤ b.size`; if
`delta = b.size - round_up req < 24` the whole block is allocated (payload
stays `b.size`, no new block), otherwise the allocation keeps payload
`round_up req` and a new free block of payload `delta - 8` appears at
`b.addr + round_up req + 8`. -/
theorem e_malloc_policy (st : St) (F : List Nat) (req : Nat) (h : WfF st F)
    (hreq : req ≤ 2 ^ 61) (hp : (mymalloc st req).1 ≠ 0) :
    ∃ b ∈ blocks st, b.addr = (mymalloc st req).1 ∧ b.alloc = 0 ∧
      round_up req ≤ b.size ∧
      (b.size - round_up req < 24 →
        get_block_size (mymalloc st req).2.mem b.addr = b.size ∧
        check_alloc (mymalloc st req).2.mem b.addr = 1 ∧
        (mymalloc st req).2.nblocks = st.nblocks) ∧
      (24 ≤ b.size - round_up req →
        get_block_size (mymalloc st req).2.mem b.addr = round_up req ∧
        check_alloc (mymalloc st req).2.mem b.addr = 1 ∧
        get_block_size (mymalloc st req).2.mem (b.addr + round_up req + 8) =
          b.size - round_up req - 8 ∧
        check_alloc (mymalloc st req).2.mem (b.addr + round_up req + 8) = 0 ∧
        (mymalloc st req).2.nblocks = st.nblocks + 1) := by
  by_cases h0 : req = 0
  · exact absurd (by simp [mymalloc, h0]) hp
  rcases h.first_fit_eq (round_up req) with hz | ⟨A, B, hF, hffnz, hfit, hfree⟩
  · exact absurd (by simp [mymalloc, h0, hz]) hp
  have hffF : first_fit st (round_up req) ∈ F := by rw [hF]; simp
  obtain ⟨b, hbm, hba, hbal⟩ := h.free_mem _ hffF
  have hffFb : b.addr ∈ F := by rw [hba]; exact hffF
  obtain ⟨hwb, _, h16b, h8b⟩ := h.hdr b hbm
  rw [hbal] at hwb
  have hp8 : 8 ≤ b.addr := h.addr_lo b hbm
  have hs61 : b.size < 2 ^ 61 := h.size_lt b hbm
  obtain ⟨hru1, hru2, hru3, hru4, hru5, hru6⟩ := round_up_spec req hreq
  have hszb : get_block_size st.mem b.addr = b.size := by
    rw [get_block_size, hwb, hdr_shiftRight_eq _ _ (by norm_num)]
  have hfitb : round_up req ≤ b.size := by
    rw [← hba, hszb] at hfit
    exact hfit
  have hlinks := h.links_mem_ne _ hffF
  rw [← hba] at hlinks hffnz
  have hsub : sub64 (get_block_size st.mem b.addr) (round_up req) =
      b.size - round_up req := by
    rw [hszb, sub64_eq_sub _ _ hfitb (by omega)]
  simp only [mymalloc, h0, if_false, ← hba, if_pos hffnz, hsub, ite_not]
  by_cases hsplit : b.size - round_up req < 24
  · rw [if_pos hsplit]
    have hszarg : b.size - round_up req + round_up req = b.size := by omega
    by_cases hlfb : b.addr = st.last_free_block
    · rw [if_pos hlfb]
      dsimp only
      have hpre : set_next_ptr st.mem (get_prev_free st.mem st.last_free_block) 0
          (get_hdr b.addr) = 4 * b.size + 0 := by
        rw [← hlfb]
        rcases hlinks.1 with hz | ⟨hmem, hne⟩
        · rw [set_next_ptr_read _ _ _ _ (Or.inl hz), hwb]
        · rw [set_next_ptr_read _ _ _ _ (Or.inr
            ((h.free_link_cells_sep _ _ hmem hffFb hne (get_hdr b.addr)
              (by simp only [get_hdr, WIDTH]; omega)
              (by rw [hszb]; simp only [get_hdr, WIDTH]; omega)).2)), hwb]
      have hw1 : set_hdr_size (set_next_ptr st.mem
          (get_prev_free st.mem st.last_free_block) 0) b.addr
          (b.size - round_up req + round_up req) (get_hdr b.addr) =
          4 * b.size + 0 := by
        rw [hszarg]
        exact set_hdr_size_word _ _ b.size 0 b.size hpre (by norm_num) (by omega)
      have hw2 : set_hdr_status (set_hdr_size (set_next_ptr st.mem
          (get_prev_free st.mem st.last_free_block) 0) b.addr
          (b.size - round_up req + round_up req)) b.addr 1 (get_hdr b.addr) =
          4 * b.size + 1 :=
        set_hdr_status_word _ _ b.size 0 1 hw1 (by norm_num) (by omega) (by norm_num)
      refine ⟨b, hbm, rfl, hbal, hfitb, ?_, ?_⟩
      · intro _
        refine ⟨?_, ?_, rfl⟩
        · rw [get_block_size, hw2, hdr_shiftRight_eq _ _ (by norm_num)]
        · rw [check_alloc, hw2, hdr_and_one_eq]
      · intro hc
        omega
    · rw [if_neg hlfb]
      dsimp only
      have hnxcell : get_next_free st.mem b.addr = 0 ∨
          ∀ c, c = get_hdr b.addr ∨ c = get_hdr b.addr + WIDTH ∨
            c = get_hdr b.addr + 2 * WIDTH →
            c ≠ get_hdr (get_next_free st.mem b.addr) + WIDTH := by
        rcases hlinks.2 with hz | ⟨hmem, hne⟩
        · exact Or.inl hz
        · right
          intro c hc
          refine (h.free_link_cells_sep _ _ hmem hffFb hne c ?_ ?_).1
          · rcases hc with hz | hz | hz <;> simp only [hz, get_hdr, WIDTH] <;> omega
          · rw [hszb]
            rcases hc with hz | hz | hz <;> simp only [hz, get_hdr, WIDTH] <;> omega
      have hm1b : ∀ c, c = get_hdr b.addr ∨ c = get_hdr b.addr + WIDTH ∨
          c = get_hdr b.addr + 2 * WIDTH →
          set_prev_ptr st.mem (get_next_free st.mem b.addr)
            (get_prev_free st.mem b.addr) c = st.mem c := by
        intro c hc
        rcases hnxcell with hz | hcell
        · rw [set_prev_ptr_read _ _ _ _ (Or.inl hz)]
        · rw [set_prev_ptr_read _ _ _ _ (Or.inr (hcell c hc))]
      have hb0 : b.addr ≠ 0 := by omega
      have hprev1 : get_prev_free (set_prev_ptr st.mem (get_next_free st.mem b.addr)
          (get_prev_free st.mem b.addr)) b.addr = get_prev_free st.mem b.addr := by
        rw [get_prev_free_nz _ _ hb0, hm1b _ (Or.inr (Or.inl rfl)),
          get_prev_free_nz _ _ hb0]
      have hnext1 : get_next_free (set_prev_ptr st.mem (get_next_free st.mem b.addr)
          (get_prev_free st.mem b.addr)) b.addr = get_next_free st.mem b.addr := by
        rw [get_next_free_nz _ _ hb0, hm1b _ (Or.inr (Or.inr rfl)),
          get_next_free_nz _ _ hb0]
      rw [hprev1, hnext1]
      have hpre : set_next_ptr (set_prev_ptr st.mem (get_next_free st.mem b.addr)
          (get_prev_free st.mem b.addr)) (get_prev_free st.mem b.addr)
          (get_next_free st.mem b.addr) (get_hdr b.addr) = 4 * b.size + 0 := by
        have hstep1 : set_prev_ptr st.mem (get_next_free st.mem b.addr)
            (get_prev_free st.mem b.addr) (get_hdr b.addr) = 4 * b.size + 0 := by
          rw [hm1b _ (Or.inl rfl), hwb]
        rcases hlinks.1 with hz | ⟨hmem, hne⟩
        · rw [set_next_ptr_read _ _ _ _ (Or.inl hz), hstep1]
        · rw [set_next_ptr_read _ _ _ _ (Or.inr
            ((h.free_link_cells_sep _ _ hmem hffFb hne (get_hdr b.addr)
              (by simp only [get_hdr, WIDTH]; omega)
              (by rw [hszb]; simp only [get_hdr, WIDTH]; omega)).2)), hstep1]
      have hw1 : set_hdr_size (set_next_ptr (set_prev_ptr st.mem
          (get_next_free st.mem b.addr) (get_prev_free st.mem b.addr))
          (get_prev_free st.mem b.addr) (get_next_free st.mem b.addr)) b.addr
          (b.size - round_up req + round_up req) (get_hdr b.addr) =
          4 * b.size + 0 := by
        rw [hszarg]
        exact set_hdr_size_word _ _ b.size 0 b.size hpre (by norm_num) (by omega)
      have hw2 : set_hdr_status (set_hdr_size (set_next_ptr (set_prev_ptr st.mem
          (get_next_free st.mem b.addr) (get_prev_free st.mem b.addr))
          (get_prev_free st.mem b.addr) (get_next_free st.mem b.addr)) b.addr
          (b.size - round_up req + round_up req)) b.addr 1 (get_hdr b.addr) =
          4 * b.size + 1 :=
        set_hdr_status_word _ _ b.size 0 1 hw1 (by norm_num) (by omega) (by norm_num)
      refine ⟨b, hbm, rfl, hbal, hfitb, ?_, ?_⟩
      · intro _
        refine ⟨?_, ?_, rfl⟩
        · rw [get_block_size, hw2, hdr_shiftRight_eq _ _ (by norm_num)]
        · rw [check_alloc, hw2, hdr_and_one_eq]
      · intro hc
        omega
  · rw [if_neg hsplit]
    have hfb8 : sub64 (b.size - round_up req) WIDTH = b.size - round_up req - 8 := by
      simp only [WIDTH]
      rw [sub64_eq_sub _ _ (by omega) (by omega)]
    simp only [create_partial_fb, hfb8]
    have hcq : get_hdr (b.addr + round_up req + WIDTH) = b.addr + round_up req := by
      simp only [get_hdr, WIDTH]
      omega
    have hcr : ∀ c, (c = get_hdr b.addr ∨ c = b.addr + round_up req ∨
        c = b.addr + round_up req + WIDTH ∨ c = b.addr + round_up req + 2 * WIDTH) →
        b.addr - 8 ≤ c ∧ c < b.addr + get_block_size st.mem b.addr := by
      intro c hc
      rw [hszb]
      rcases hc with hz | hz | hz | hz <;> simp only [hz, get_hdr, WIDTH] <;> omega
    have hsep1 : ∀ c, (c = get_hdr b.addr ∨ c = b.addr + round_up req ∨
        c = b.addr + round_up req + WIDTH ∨ c = b.addr + round_up req + 2 * WIDTH) →
        (get_prev_free st.mem b.addr = 0 ∨
          c ≠ get_hdr (get_prev_free st.mem b.addr) + 2 * WIDTH) ∧
        (get_next_free st.mem b.addr = 0 ∨
          c ≠ get_hdr (get_next_free st.mem b.addr) + WIDTH) := by
      intro c hc
      constructor
      · rcases hlinks.1 with hz | ⟨hmem, hne⟩
        · exact Or.inl hz
        · exact Or.inr (h.free_link_cells_sep _ _ hmem hffFb hne c
            (hcr c hc).1 (hcr c hc).2).2
      · rcases hlinks.2 with hz | ⟨hmem, hne⟩
        · exact Or.inl hz
        · exact Or.inr (h.free_link_cells_sep _ _ hmem hffFb hne c
            (hcr c hc).1 (hcr c hc).2).1
    have hm2 : ∀ c, (c = get_hdr b.addr ∨ c = b.addr + round_up req ∨
        c = b.addr + round_up req + WIDTH ∨ c = b.addr + round_up req + 2 * WIDTH) →
        set_prev_ptr (set_next_ptr st.mem (get_prev_free st.mem b.addr)
          (b.addr + round_up req + WIDTH)) (get_next_free st.mem b.addr)
          (b.addr + round_up req + WIDTH) c = st.mem c := by
      intro c hc
      obtain ⟨hc1, hc2⟩ := hsep1 c hc
      rw [set_prev_ptr_read _ _ _ _ (by
          rcases hc2 with hz | hz
          · exact Or.inl hz
          · exact Or.inr hz),
        set_next_ptr_read _ _ _ _ (by
          rcases hc1 with hz | hz
          · exact Or.inl hz
          · exact Or.inr hz)]
    have hwq : create_hdr (set_prev_ptr (set_next_ptr st.mem
        (get_prev_free st.mem b.addr) (b.addr + round_up req + WIDTH))
        (get_next_free st.mem b.addr) (b.addr + round_up req + WIDTH))
        (get_hdr (b.addr + round_up req + WIDTH)) (b.size - round_up req - 8)
        (get_prev_free st.mem b.addr) (get_next_free st.mem b.addr)
        (b.addr + round_up req) = 4 * (b.size - round_up req - 8) := by
      unfold create_hdr
      rw [hcq]
      rw [store_ne _ _ _ _ (by simp only [WIDTH]; omega),
        store_ne _ _ _ _ (by simp only [WIDTH]; omega), store_eq,
        shl2_mod_eq _ (by omega)]
    have hwb2 : create_hdr (set_prev_ptr (set_next_ptr st.mem
        (get_prev_free st.mem b.addr) (b.addr + round_up req + WIDTH))
        (get_next_free st.mem b.addr) (b.addr + round_up req + WIDTH))
        (get_hdr (b.addr + round_up req + WIDTH)) (b.size - round_up req - 8)
        (get_prev_free st.mem b.addr) (get_next_free st.mem b.addr)
        (get_hdr b.addr) = 4 * b.size + 0 := by
      unfold create_hdr
      rw [hcq]
      rw [store_ne _ _ _ _ (by simp only [get_hdr, WIDTH]; omega),
        store_ne _ _ _ _ (by simp only [get_hdr, WIDTH]; omega),
        store_ne _ _ _ _ (by simp only [get_hdr, WIDTH]; omega),
        hm2 _ (Or.inl rfl), hwb]
    obtain ⟨hmemu, hnbu, hnuu, _, _, _⟩ := upd_last_free_block_mem
      { st with mem := (create_hdr (set_prev_ptr (set_next_ptr st.mem
          (get_prev_free st.mem b.addr) (b.addr + round_up req + WIDTH))
          (get_next_free st.mem b.addr) (b.addr + round_up req + WIDTH))
          (get_hdr (b.addr + round_up req + WIDTH)) (b.size - round_up req - 8)
          (get_prev_free st.mem b.addr) (get_next_free st.mem b.addr)) }
      b.addr (b.addr + round_up req + WIDTH)
    simp only [hmemu, hnbu, hnuu]
    have hw1 := set_hdr_size_word _ b.addr b.size 0 (round_up req) hwb2
      (by norm_num) (by omega)
    have hw2 := set_hdr_status_word _ b.addr (round_up req) 0 1 hw1 (by norm_num)
      (by omega) (by norm_num)
    have hqcell : set_hdr_status (set_hdr_size (create_hdr (set_prev_ptr
        (set_next_ptr st.mem (get_prev_free st.mem b.addr)
          (b.addr + round_up req + WIDTH)) (get_next_free st.mem b.addr)
        (b.addr + round_up req + WIDTH)) (get_hdr (b.addr + round_up req + WIDTH))
        (b.size - round_up req - 8) (get_prev_free st.mem b.addr)
        (get_next_free st.mem b.addr)) b.addr (round_up req)) b.addr 1
        (b.addr + round_up req) = 4 * (b.size - round_up req - 8) := by
      rw [set_hdr_status_read _ _ _ _ (by simp only [get_hdr]; omega),
        set_hdr_size_read _ _ _ _ (by simp only [get_hdr]; omega), hwq]
    refine ⟨b, hbm, rfl, hbal, hfitb, ?_, ?_⟩
    · intro hc
      omega
    · intro _
      refine ⟨?_, ?_, ?_, ?_, trivial⟩
      · rw [get_block_size, hw2, hdr_shiftRight_eq _ _ (by norm_num)]
      · rw [check_alloc, hw2, hdr_and_one_eq]
      · have hg : get_hdr (b.addr + round_up req + 8) = b.addr + round_up req := by
          simp only [get_hdr, WIDTH]
          omega
        rw [get_block_size, hg, hqcell, mul4_shiftRight_eq]
      · have hg : get_hdr (b.addr + round_up req + 8) = b.addr + round_up req := by
          simp only [get_hdr, WIDTH]
          omega
        rw [check_alloc, hg, hqcell, mul4_and_one_eq]

end Explicit

/-! ## Claim theorems: concrete executions -/

/-- C1 (code bug evidence): the tiling invariant is broken by
`myinit(0, 4096); p = mymalloc(4088); myfree(p)` when the host word just past
the region reads 0.  `p` is the region's last block; `myfree` interprets the
out-of-region word at 4096 as a free neighbor header and coalesces with the
phantom block: afterwards `nblocks = 0`, the implicit walk is empty, and the
blocks sum to `0 ≠ 4096` (the code's own validator check). -/
theorem tiling_fails_after_freeing_final_block :
    c1_m.1 = 8 ∧
    Explicit.check_alloc c1_m.2.mem 8 = 1 ∧
    Explicit.sizeSum (Explicit.blocks c1_m.2) = c1_m.2.segment_size ∧
    c1_final.nblocks = 0 ∧
    Explicit.sizeSum (Explicit.blocks c1_final) = 0 ∧
    c1_final.segment_size = 4096 ∧
    Explicit.sizeSum (Explicit.blocks c1_final) ≠ c1_final.segment_size ∧
    Explicit.get_block_size c1_final.mem 8 = 4096 := by
  decide

/-- C2 (code bug evidence): free-list exactness is broken by
`myinit(0, 4096); a = mymalloc(16); p = mymalloc(4056); myfree(a); myfree(p)`
when the host memory beyond the region holds the word 8 at address 4112.
The final `myfree` coalesces `p` with a phantom block whose links are host
junk; afterwards the backward walk from `last_free_block` is `[8, 32]` while
the heap's free blocks are exactly `[8]` — the chain visits `32`, which is
not a free block of the heap. -/
theorem freelist_exactness_fails_after_freeing_final_block :
    c2_a.1 = 8 ∧ c2_p.1 = 32 ∧
    c2_final.last_free_block = 8 ∧
    Explicit.chain c2_final.mem 2 c2_final.last_free_block = [8, 32] ∧
    Explicit.get_prev_free c2_final.mem 32 = 0 ∧
    Explicit.freeAddrs (Explicit.blocks c2_final) = [8] ∧
    32 ∈ Explicit.chain c2_final.mem 2 c2_final.last_free_block ∧
    32 ∉ Explicit.freeAddrs (Explicit.blocks c2_final) := by
  decide

/-- C3 counterexample: after `myinit(0, 4096); p = mymalloc(16);
q = mymalloc(16); myfree(p); myfree(q)` the final `myfree` has returned and
the heap contains two address-adjacent free blocks (at 8 and at 32): the
claimed right-coalescing invariant is false, because `myfree` never merges
the freed block with its *left* neighbor. -/
theorem adjacent_free_blocks_survive_free :
    c3_p.1 = 8 ∧ c3_q.1 = 32 ∧
    Explicit.blocks c3_final = [⟨8, 16, 0⟩, ⟨32, 4064, 0⟩] ∧
    Explicit.get_next_block c3_final.mem 8 = 32 ∧
    Explicit.check_alloc c3_final.mem 8 = 0 ∧
    Explicit.check_alloc c3_final.mem 32 = 0 := by
  decide

/-- C5 counterexample: in the implicit variant a malloc served with
`delta = s - r = 8 < 24` does *not* absorb the remainder as padding — the
run `myinit(0, 4096); mymalloc(16); mymalloc(16); myfree(first); mymalloc(8)`
serves the last request from the free 16-byte block at 8, and the code
splits: the result keeps payload 8 (not 16) and a fresh zero-payload free
block appears at 24, growing `nblocks` from 3 to 4. -/
theorem implicit_malloc_splits_small_delta :
    c5_c.1 = 8 ∧
    Implicit.get_block_size c5_s3.mem 8 = 16 ∧
    Implicit.check_alloc c5_s3.mem 8 = 0 ∧
    Implicit.round_up 8 = 8 ∧
    Implicit.get_block_size c5_c.2.mem 8 = 8 ∧
    Implicit.get_block_size c5_c.2.mem 8 ≠ 16 ∧
    c5_s3.nblocks = 3 ∧ c5_c.2.nblocks = 4 ∧
    Implicit.blocks c5_c.2 = [⟨8, 8, 1⟩, ⟨24, 0, 0⟩, ⟨32, 16, 1⟩, ⟨56, 4040, 0⟩] := by
  decide

/-- C6 counterexample: shrink-realloc stability fails in the implicit
variant — after `myinit(0, 4096); p = mymalloc(16)` (so `p = 8` with payload
16), `myrealloc(p, 8)` returns 32, not `p`, because the implicit realloc is
unconditionally allocate-copy-free; and in the explicit variant
`myrealloc(p, 0)` (with `0 ≤ payload_size(p)`) returns the null pointer,
not `p`. -/
theorem implicit_shrink_realloc_not_stable :
    c6_p.1 = 8 ∧
    Implicit.get_block_size c6_p.2.mem 8 = 16 ∧
    c6_r.1 = 32 ∧
    c6_r.1 ≠ c6_p.1 ∧
    c3_p.1 = 8 ∧
    c6_e.1 = 0 := by
  decide

/-- C7 counterexample: in the scenario `myinit(0, 4096); p = mymalloc(100);
myrealloc(p, 32)` the free block created immediately to the right of `p` has
payload 64, not the claimed 60: `mymalloc(100)` rounds the payload up to
104, so the split leaves `104 - 32 - 8 = 64` bytes (and 60 is not even a
multiple of 8).  The full block list shows no payload-60 block exists. -/
theorem shrink_split_free_payload_not_60 :
    c7_p.1 = 8 ∧ c7_r.1 = 8 ∧
    Explicit.get_next_block c7_r.2.mem 8 = 48 ∧
    Explicit.get_block_size c7_r.2.mem 48 = 64 ∧
    Explicit.get_block_size c7_r.2.mem 48 ≠ 60 ∧
    Explicit.blocks c7_r.2 = [⟨8, 32, 1⟩, ⟨48, 64, 0⟩, ⟨120, 3976, 0⟩] := by
  decide

/-- C7 amended: the scenario `myinit(base, 4096); p = mymalloc(100);
myrealloc(p, 32)` (instantiated at the 8-byte-aligned base 0) returns `p`,
leaves `payload_size(p) = 32`, and creates a free block of payload
`round_up(100) - 32 - 8 = 64` immediately to `p`'s right. -/
theorem shrink_split_scenario_payload_64 :
    c7_p.1 = 8 ∧ c7_r.1 = c7_p.1 ∧
    Explicit.get_block_size c7_r.2.mem 8 = 32 ∧
    Explicit.get_next_block c7_r.2.mem 8 = 48 ∧
    Explicit.check_alloc c7_r.2.mem 48 = 0 ∧
    Explicit.get_block_size c7_r.2.mem 48 = 64 := by
  decide

/-- C9 (code bug evidence): the alignment contract fails on a sequence of
operations.  From the 8-byte-aligned base 0, the run `myinit(0, 4096);
a = mymalloc(16); b = mymalloc(16); c = mymalloc(16); d = mymalloc(4016);
myfree(a); myfree(b); myfree(d)` frees the region's final block `d`, and
`myfree` reads the out-of-region words at 4096/4104/4112 as a free
neighbor's header and links, splicing the host word 4113 into the free list
as a block address.  The next `mymalloc(4032)` walks the corrupted list and
returns 4113 — a non-null pointer not congruent to the base modulo 8 (all
earlier returns 8, 32, 56, 80 are congruent). -/
theorem malloc_returns_misaligned_after_freeing_final_block :
    c9_a.1 = 8 ∧ c9_b.1 = 32 ∧ c9_c.1 = 56 ∧ c9_d.1 = 80 ∧
    c9_a.1 % 8 = 0 ∧ c9_b.1 % 8 = 0 ∧ c9_c.1 % 8 = 0 ∧ c9_d.1 % 8 = 0 ∧
    c9_final.1 ≠ 0 ∧ c9_final.1 = 4113 ∧ c9_final.1 % 8 ≠ 0 := by
  decide

/-! ## Claim theorems: one-step functional properties on well-formed heaps -/

namespace Explicit

/-- The freshly initialized 4096-byte heap at base 0 is well formed, with
the single free block as its free list. -/
theorem wf_c3_s0 : WfF c3_s0 [8] := by
  have hblocks : blocks c3_s0 = [⟨8, 4088, 0⟩] := by decide
  refine ⟨by decide, by decide, ?_, ?_, by decide, ?_, by decide⟩
  · rw [hblocks]
    exact ⟨by decide, by show _ = _; decide⟩
  · rw [hblocks]
    decide
  · exact ⟨by decide, by simp, by decide, by decide, by decide⟩

/-- The heap after `mymalloc(16)` on the fresh 4096-byte heap is well
formed: an allocated 16-byte block at 8 and the free remainder at 32. -/
theorem wf_c3_p : WfF c3_p.2 [32] := by
  have hblocks : blocks c3_p.2 = [⟨8, 16, 1⟩, ⟨32, 4064, 0⟩] := by decide
  refine ⟨by decide, by decide, ?_, ?_, by decide, ?_, by decide⟩
  · rw [hblocks]
    exact ⟨by decide, by decide, by show _ = _; decide⟩
  · rw [hblocks]
    decide
  · exact ⟨by decide, by simp, by decide, by decide, by decide⟩

/-- The heap after two `mymalloc(16)` calls on the fresh 4096-byte heap is
well formed: allocated blocks at 8 and 32, free remainder at 56. -/
theorem wf_c3_q : WfF c3_q.2 [56] := by
  have hblocks : blocks c3_q.2 = [⟨8, 16, 1⟩, ⟨32, 16, 1⟩, ⟨56, 4040, 0⟩] := by decide
  refine ⟨by decide, by decide, ?_, ?_, by decide, ?_, by decide⟩
  · rw [hblocks]
    exact ⟨by decide, by decide, by decide, by show _ = _; decide⟩
  · rw [hblocks]
    decide
  · exact ⟨by decide, by simp, by decide, by decide, by decide⟩

/-- Witness for the C5 theorem: on the fresh 4096-byte heap `c3_s0`,
`mymalloc(16)` is served from the single free block (payload 4088,
`delta = 4072 ≥ 24`), exercising the split branch. -/
theorem e_malloc_policy_witness :
    (16 ≤ 2 ^ 61 ∧ (mymalloc c3_s0 16).1 ≠ 0) ∧
    ∃ b ∈ blocks c3_s0, b.addr = (mymalloc c3_s0 16).1 ∧ b.alloc = 0 ∧
      round_up 16 ≤ b.size ∧
      (b.size - round_up 16 < 24 →
        get_block_size (mymalloc c3_s0 16).2.mem b.addr = b.size ∧
        check_alloc (mymalloc c3_s0 16).2.mem b.addr = 1 ∧
        (mymalloc c3_s0 16).2.nblocks = c3_s0.nblocks) ∧
      (24 ≤ b.size - round_up 16 →
        get_block_size (mymalloc c3_s0 16).2.mem b.addr = round_up 16 ∧
        check_alloc (mymalloc c3_s0 16).2.mem b.addr = 1 ∧
        get_block_size (mymalloc c3_s0 16).2.mem (b.addr + round_up 16 + 8) =
          b.size - round_up 16 - 8 ∧
        check_alloc (mymalloc c3_s0 16).2.mem (b.addr + round_up 16 + 8) = 0 ∧
        (mymalloc c3_s0 16).2.nblocks = c3_s0.nblocks + 1) :=
  ⟨⟨by norm_num, by decide⟩,
    e_malloc_policy c3_s0 [8] 16 wf_c3_s0 (by norm_num) (by decide)⟩

/-- C3 amended: on a well-formed heap, `myfree(p)` on an allocated block
with an address-order successor performs exactly one right-coalescing step:
the freed block becomes free; if its immediate right neighbor was free the
two merge (payload grows by `8 + neighbor payload`, `nblocks` drops by one),
otherwise the payload is unchanged.  Adjacent free pairs elsewhere (and the
pair formed with a still-free block beyond the absorbed neighbor) may
remain, so the claimed heap-wide no-adjacent-free-blocks invariant does not
hold (see the counterexample). -/
theorem free_coalesces_one_step (st : St) (F : List Nat) (bs1 bs2 : List Blk)
    (b q : Blk) (p : Nat) (h : WfF st F)
    (hbl : blocks st = bs1 ++ b :: q :: bs2)
    (hbp : b.addr = p) (hal : b.alloc = 1) :
    check_alloc (myfree st p).mem p = 0 ∧
      (q.alloc = 0 →
        get_block_size (myfree st p).mem p = b.size + q.size + 8 ∧
          (myfree st p).nblocks = st.nblocks - 1) ∧
      (q.alloc = 1 →
        get_block_size (myfree st p).mem p = b.size ∧
          (myfree st p).nblocks = st.nblocks) ∧
      (myfree st p).nused = st.nused - 1 := by
  have hbm : b ∈ blocks st := by rw [hbl]; simp
  have hqm : q ∈ blocks st := by rw [hbl]; simp
  have hp8 : 8 ≤ p := hbp ▸ h.addr_lo b hbm
  obtain ⟨hwb, _, h16b, h8b⟩ := h.hdr b hbm
  rw [hbp, hal] at hwb
  obtain ⟨hwq, hleq, h16q, h8q⟩ := h.hdr q hqm
  have hsb : b.size < 2 ^ 61 := h.size_lt b hbm
  have hsq : q.size < 2 ^ 61 := h.size_lt q hqm
  have hqaddr : q.addr = p + b.size + 8 := by
    have ht := h.tiled
    rw [hbl] at ht
    obtain ⟨mid, _, ht2⟩ := tiles_append_elim _ _ _ _ ht
    obtain ⟨hb1, hq1, _⟩ := ht2
    simp only [WIDTH] at hq1
    omega
  have hszp : get_block_size st.mem p = b.size := by
    rw [get_block_size, hwb, hdr_shiftRight_eq _ _ (by norm_num)]
  have hnextb : get_next_block st.mem p = q.addr := by
    simp only [get_next_block, hszp, WIDTH]
    omega
  have hqa : check_alloc st.mem q.addr = q.alloc := by
    rw [check_alloc, hwq, hdr_and_one_eq]
    omega
  have hp0 : p ≠ 0 := by omega
  have hnbl : st.nblocks = bs1.length + 2 + bs2.length := by
    have hx := blocks_length st
    rw [hbl] at hx
    simp at hx
    omega
  have hnb64 : st.nblocks < 2 ^ 64 := by
    have := h.nblocks_lt
    omega
  have hnu1 : 1 ≤ st.nused := by
    have := countAlloc_pos (blocks st) b hbm hal
    rw [h.used] at this
    exact this
  have hnu64 : st.nused < 2 ^ 64 := by
    have h1 := h.nused_le
    omega
  simp only [myfree]
  rw [if_pos hp0, hnextb, hqa]
  rcases Nat.le_one_iff_eq_zero_or_eq_one.mp hleq with hq0 | hq1
  · rw [hq0, if_pos rfl]
    have hqF : q.addr ∈ F := h.free_addr_mem q hqm hq0
    simp only [coalesce, hnextb]
    obtain ⟨hmemu, hnbu, hnuu, _, _, _⟩ := upd_last_free_block_mem
      { st with mem := set_next_ptr (set_prev_ptr (set_next_ptr (set_prev_ptr
        (set_hdr_size (set_hdr_status st.mem p 0) p
          (get_block_size (set_hdr_status st.mem p 0) p +
            get_block_size (set_hdr_status st.mem p 0) q.addr + WIDTH))
        p (get_prev_free st.mem q.addr)) p (get_next_free st.mem q.addr))
        (get_next_free st.mem q.addr) p) (get_prev_free st.mem q.addr) p }
      q.addr p
    simp only [hmemu, hnbu, hnuu]
    have hm1p : set_hdr_status st.mem p 0 (get_hdr p) = 4 * b.size + 0 :=
      set_hdr_status_word st.mem p b.size 1 0 hwb (by norm_num) (by omega)
        (by norm_num)
    have hszp1 : get_block_size (set_hdr_status st.mem p 0) p = b.size := by
      rw [get_block_size, hm1p, hdr_shiftRight_eq _ _ (by norm_num)]
    have hszq1 : get_block_size (set_hdr_status st.mem p 0) q.addr = q.size := by
      rw [get_block_size,
        set_hdr_status_read _ _ _ _ (by simp only [get_hdr, WIDTH]; omega), hwq,
        hdr_shiftRight_eq _ _ (by omega)]
    rw [hszp1, hszq1]
    have hm2p : set_hdr_size (set_hdr_status st.mem p 0) p
        (b.size + q.size + WIDTH) (get_hdr p) =
        4 * (b.size + q.size + WIDTH) + 0 := by
      refine set_hdr_size_word _ _ b.size 0 _ hm1p (by norm_num) ?_
      simp only [WIDTH]
      omega
    have hv2 : get_next_free st.mem q.addr = 0 ∨
        get_hdr p ≠ get_hdr (get_next_free st.mem q.addr) + WIDTH := by
      rcases (h.links_mem q.addr hqF).2 with hz | hmem
      · exact Or.inl hz
      · right
        obtain ⟨h8v, hsep⟩ := h.free_sep _ hmem b hbm hal
        rw [hbp] at hsep
        simp only [get_hdr, WIDTH]
        omega
    have hv1 : get_prev_free st.mem q.addr = 0 ∨
        get_hdr p ≠ get_hdr (get_prev_free st.mem q.addr) + 2 * WIDTH := by
      rcases (h.links_mem q.addr hqF).1 with hz | hmem
      · exact Or.inl hz
      · right
        obtain ⟨h8v, hsep⟩ := h.free_sep _ hmem b hbm hal
        rw [hbp] at hsep
        simp only [get_hdr, WIDTH]
        omega
    have hfinal : (set_next_ptr (set_prev_ptr (set_next_ptr (set_prev_ptr
        (set_hdr_size (set_hdr_status st.mem p 0) p (b.size + q.size + WIDTH))
        p (get_prev_free st.mem q.addr)) p (get_next_free st.mem q.addr))
        (get_next_free st.mem q.addr) p) (get_prev_free st.mem q.addr) p)
        (get_hdr p) = 4 * (b.size + q.size + WIDTH) + 0 := by
      rw [set_next_ptr_read _ _ _ _ hv1, set_prev_ptr_read _ _ _ _ hv2,
        set_next_ptr_read _ _ _ _ (Or.inr (by simp only [get_hdr, WIDTH]; omega)),
        set_prev_ptr_read _ _ _ _ (Or.inr (by simp only [get_hdr, WIDTH]; omega)),
        hm2p]
    refine ⟨?_, ?_, ?_, ?_⟩
    · rw [check_alloc, hfinal, hdr_and_one_eq]
    · intro _
      constructor
      · rw [get_block_size, hfinal, hdr_shiftRight_eq _ _ (by norm_num)]
        simp only [WIDTH]
      · rw [sub64_eq_sub _ _ (by omega) hnb64]
    · intro hcontra
      omega
    · rw [sub64_eq_sub _ _ (by omega) hnu64]
  · rw [hq1, if_neg (by omega)]
    simp only [change_to_free]
    have hlf : st.last_free_block = 0 ∨
        get_hdr p ≠ get_hdr st.last_free_block + 2 * WIDTH := by
      rcases h.lf_cases with ⟨hz, _⟩ | ⟨hmem, _⟩
      · exact Or.inl hz
      · right
        obtain ⟨h8v, hsep⟩ := h.free_sep _ hmem b hbm hal
        rw [hbp] at hsep
        simp only [get_hdr, WIDTH]
        omega
    have hm1p : set_hdr_status st.mem p 0 (get_hdr p) = 4 * b.size + 0 :=
      set_hdr_status_word st.mem p b.size 1 0 hwb (by norm_num) (by omega)
        (by norm_num)
    have hfinal : (set_next_ptr (set_prev_ptr (set_next_ptr
        (set_hdr_status st.mem p 0) st.last_free_block p) p
        st.last_free_block) p 0) (get_hdr p) = 4 * b.size + 0 := by
      rw [set_next_ptr_read _ _ _ _ (Or.inr (by simp only [get_hdr, WIDTH]; omega)),
        set_prev_ptr_read _ _ _ _ (Or.inr (by simp only [get_hdr, WIDTH]; omega)),
        set_next_ptr_read _ _ _ _ hlf, hm1p]
    refine ⟨?_, ?_, ?_, ?_⟩
    · rw [check_alloc, hfinal, hdr_and_one_eq]
    · intro hcontra
      omega
    · intro _
      exact ⟨by rw [get_block_size, hfinal, hdr_shiftRight_eq _ _ (by norm_num)], trivial⟩
    · rw [sub64_eq_sub _ _ (by omega) hnu64]

/-- C3 amended witness: freeing the allocated block at 32 (whose right
neighbor at 56 is free) merges the two: the block at 32 becomes free with
payload `16 + 4040 + 8 = 4064` and `nblocks` drops from 3 to 2. -/
theorem free_coalesces_one_step_witness :
    check_alloc (myfree c3_q.2 32).mem 32 = 0 ∧
      get_block_size (myfree c3_q.2 32).mem 32 = 4064 ∧
      (myfree c3_q.2 32).nblocks = 2 := by
  have h := free_coalesces_one_step c3_q.2 [56] [⟨8, 16, 1⟩] []
    ⟨32, 16, 1⟩ ⟨56, 4040, 0⟩ 32 wf_c3_q (by decide) rfl rfl
  refine ⟨h.1, ?_, ?_⟩
  · simpa using (h.2.1 rfl).1
  · simpa using (h.2.1 rfl).2

/-- C6 amended: in the explicit variant, on a well-formed heap, for every
allocated payload pointer `p` and every requested size `m` with
`1 ≤ m ≤ payload_size(p)`, `myrealloc(p, m)` returns `p` and the first `m`
bytes of the payload are unchanged.  (The implicit variant relocates
instead, and `m = 0` frees the block — both shown in the counterexample.) -/
theorem shrink_realloc_stable (st : St) (F : List Nat) (b : Blk) (p msize : Nat)
    (h : WfF st F) (hb : b ∈ blocks st) (hbp : b.addr = p) (hal : b.alloc = 1)
    (hm1 : 1 ≤ msize) (hms : msize ≤ b.size) :
    (myrealloc st p msize).1 = p ∧
      ∀ c, p ≤ c → c < p + msize →
        (myrealloc st p msize).2.mem c = st.mem c := by
  have hp8 : 8 ≤ p := hbp ▸ h.addr_lo b hb
  have hp0 : ¬(p = 0) := by omega
  have hm0 : ¬(msize = 0) := by omega
  obtain ⟨hw, hle, h16, h8m⟩ := h.hdr b hb
  rw [hbp, hal] at hw
  have hs61 : b.size < 2 ^ 61 := h.size_lt b hb
  have hcurr : get_block_size st.mem p = b.size := by
    rw [get_block_size, hw, hdr_shiftRight_eq _ _ (by norm_num)]
  obtain ⟨hru1, hru2, hru3, hru4, hru5, hru6⟩ := round_up_spec msize (by omega)
  have hnle : round_up msize ≤ b.size := hru6 b.size hms h8m h16
  simp only [myrealloc, hp0, hm0, if_false, hcurr, hnle, if_true, if_neg, if_pos]
  by_cases hsplit : 24 ≤ b.size - round_up msize
  · rw [if_pos hsplit]
    refine ⟨rfl, ?_⟩
    intro c hc1 hc2
    have hcn : c < p + round_up msize := by omega
    simp only [change_to_free]
    rw [set_hdr_size_read _ _ _ _ (by simp only [get_hdr, WIDTH]; omega)]
    rw [set_next_ptr_read _ _ _ _ (Or.inr (by simp only [get_hdr, WIDTH]; omega))]
    rw [set_prev_ptr_read _ _ _ _ (Or.inr (by simp only [get_hdr, WIDTH]; omega))]
    have hlf : st.last_free_block = 0 ∨ c ≠ get_hdr st.last_free_block + 2 * WIDTH := by
      rcases h.lf_cases with ⟨hlf0, _⟩ | ⟨hlfF, hlfnz⟩
      · exact Or.inl hlf0
      · right
        obtain ⟨bf, hbf, hbfa, hbff⟩ := h.free_mem _ hlfF
        have hlf8 : 8 ≤ st.last_free_block := hbfa ▸ h.addr_lo bf hbf
        obtain ⟨hwf, _, h16f, _⟩ := h.hdr bf hbf
        have hne : bf.addr ≠ b.addr := by
          intro he
          have := h.addr_inj bf b hbf hb he
          rw [this] at hbff
          omega
        have hsep := h.sep2 bf b hbf hb hne
        rw [hbp, hbfa] at hsep
        rw [hbfa] at *
        simp only [get_hdr, WIDTH] at *
        omega
    rw [set_next_ptr_read _ _ _ _ hlf]
    rw [set_hdr_status_read _ _ _ _ (by simp only [get_hdr, WIDTH]; omega)]
    rw [set_hdr_size_read _ _ _ _ (by simp only [get_hdr, WIDTH]; omega)]
  · rw [if_neg hsplit]
    exact ⟨rfl, fun c hc1 hc2 => rfl⟩

/-- C6 witness: shrinking the 16-byte allocation at 8 to 10 bytes returns
the same pointer and preserves its first payload word. -/
theorem shrink_realloc_stable_witness :
    (myrealloc c3_p.2 8 10).1 = 8 ∧
      (myrealloc c3_p.2 8 10).2.mem 8 = c3_p.2.mem 8 := by
  have h := shrink_realloc_stable c3_p.2 [32] ⟨8, 16, 1⟩ 8 10 wf_c3_p
    (by decide) rfl rfl (by decide) (by decide)
  exact ⟨h.1, h.2 8 (by decide) (by decide)⟩

end Explicit

/-! ## Claim theorems: failure atomicity and delegation -/

/-- C4: in both variants, whenever `mymalloc` returns the null sentinel
(request 0 or no fitting free block), the returned state is exactly the
input state — no memory cell and no bookkeeping variable changes. -/
theorem malloc_fail_atomic (st : Explicit.St) (sti : Implicit.St) (n ni : Nat)
    (h : (Explicit.mymalloc st n).1 = 0) (hi : (Implicit.mymalloc sti ni).1 = 0) :
    (Explicit.mymalloc st n).2 = st ∧ (Implicit.mymalloc sti ni).2 = sti := by
  constructor
  · by_cases h0 : n = 0
    · simp [Explicit.mymalloc, h0]
    · by_cases hab : Explicit.first_fit st (Explicit.round_up n) = 0
      · simp [Explicit.mymalloc, h0, hab]
      · exfalso
        simp only [Explicit.mymalloc, h0, if_false, if_neg, hab, ite_not] at h
        split_ifs at h <;> simp_all
  · by_cases h0 : ni = 0
    · simp [Implicit.mymalloc, h0]
    · by_cases hab : Implicit.first_fit sti (Implicit.round_up ni) = 0
      · simp [Implicit.mymalloc, h0, hab]
      · exfalso
        simp only [Implicit.mymalloc, h0, if_false, if_neg, hab, ite_not] at hi

/-- C4 witness: an out-of-memory request of 8192 bytes on the freshly
initialized 4096-byte heap returns null in both variants and leaves both
states unchanged. -/
theorem malloc_fail_atomic_witness :
    (Explicit.mymalloc c1_s0 8192).2 = c1_s0 ∧
    (Implicit.mymalloc c5_s0 8192).2 = c5_s0 :=
  malloc_fail_atomic c1_s0 c5_s0 8192 8192 (by decide) (by decide)

/-- C8: in both variants `myrealloc(null, n)` is exactly `mymalloc(n)`, and
for a non-null pointer `myrealloc(p, 0)` frees `p` (with `myfree`'s full
effect) and returns the null sentinel. -/
theorem realloc_delegates (st : Explicit.St) (sti : Implicit.St) (n ni p pi : Nat)
    (hp : p ≠ 0) (hpi : pi ≠ 0) :
    Explicit.myrealloc st 0 n = Explicit.mymalloc st n ∧
    Explicit.myrealloc st p 0 = (0, Explicit.myfree st p) ∧
    Implicit.myrealloc sti 0 ni = Implicit.mymalloc sti ni ∧
    Implicit.myrealloc sti pi 0 = (0, Implicit.myfree sti pi) := by
  refine ⟨rfl, ?_, rfl, ?_⟩
  · simp [Explicit.myrealloc, hp]
  · simp [Implicit.myrealloc, hpi]

/-- C8 witness: instantiated on the freshly initialized heaps with the
payload pointer 8. -/
theorem realloc_delegates_witness :
    Explicit.myrealloc c1_s0 0 24 = Explicit.mymalloc c1_s0 24 ∧
    Explicit.myrealloc c1_s0 8 0 = (0, Explicit.myfree c1_s0 8) ∧
    Implicit.myrealloc c5_s0 0 24 = Implicit.mymalloc c5_s0 24 ∧
    Implicit.myrealloc c5_s0 8 0 = (0, Implicit.myfree c5_s0 8) :=
  realloc_delegates c1_s0 c5_s0 24 24 8 8 (by decide) (by decide)

/-- C10: in both variants `myinit` returns `true` for every base address,
every region size and every prior memory — no precondition on the region is
checked — and it resets the allocator to a single free block whose payload
size is `size - 8` (stated for `8 ≤ size ≤ 2^61`, where the size_t
arithmetic cannot wrap). -/
theorem init_always_succeeds (m mi : Mem) (b bi n ni : Nat) :
    (Explicit.myinit m b n).1 = true ∧
    (Explicit.myinit m b n).2.nblocks = 1 ∧
    (Explicit.myinit m b n).2.nused = 0 ∧
    (Explicit.myinit m b n).2.last_free_block = b + 8 ∧
    (Explicit.myinit m b n).2.start_block = b + 8 ∧
    (8 ≤ n → n ≤ 2 ^ 61 →
      Explicit.get_block_size (Explicit.myinit m b n).2.mem (b + 8) = n - 8 ∧
      Explicit.check_alloc (Explicit.myinit m b n).2.mem (b + 8) = 0) ∧
    (Implicit.myinit mi bi ni).1 = true ∧
    (Implicit.myinit mi bi ni).2.nblocks = 1 ∧
    (Implicit.myinit mi bi ni).2.nused = 0 ∧
    (Implicit.myinit mi bi ni).2.start_block = bi + 8 ∧
    (8 ≤ ni → ni ≤ 2 ^ 61 →
      Implicit.get_block_size (Implicit.myinit mi bi ni).2.mem (bi + 8) = ni - 8 ∧
      Implicit.check_alloc (Implicit.myinit mi bi ni).2.mem (bi + 8) = 0) := by
  refine ⟨rfl, rfl, rfl, by simp [Explicit.myinit, WIDTH], by simp [Explicit.myinit, WIDTH],
    ?_, rfl, rfl, rfl, by simp [Implicit.myinit, WIDTH], ?_⟩
  · intro h8 h61
    have hsub : sub64 n 8 = n - 8 := sub64_eq_sub n 8 h8 (by omega)
    have hw : (Explicit.myinit m b n).2.mem (b + 8 - 8) = 4 * (n - 8) := by
      show Explicit.create_hdr m b (sub64 n 8) 0 0 (b + 8 - 8) = 4 * (n - 8)
      unfold Explicit.create_hdr
      have hne1 : b ≠ b + 2 * WIDTH := by simp only [WIDTH]; omega
      have hne2 : b ≠ b + WIDTH := by simp only [WIDTH]; omega
      rw [show b + 8 - 8 = b by omega]
      rw [store_ne _ _ _ _ hne1, store_ne _ _ _ _ hne2, store_eq, hsub,
        shl2_mod_eq _ (by omega)]
    constructor
    · show (Explicit.myinit m b n).2.mem (Explicit.get_hdr (b + 8)) >>> 2 = n - 8
      rw [show Explicit.get_hdr (b + 8) = b + 8 - 8 by simp [Explicit.get_hdr, WIDTH]]
      rw [hw, mul4_shiftRight_eq]
    · show (Explicit.myinit m b n).2.mem (Explicit.get_hdr (b + 8)) &&& 1 = 0
      rw [show Explicit.get_hdr (b + 8) = b + 8 - 8 by simp [Explicit.get_hdr, WIDTH]]
      rw [hw, mul4_and_one_eq]
  · intro h8 h61
    have hsub : sub64 ni 8 = ni - 8 := sub64_eq_sub ni 8 h8 (by omega)
    have hw : (Implicit.myinit mi bi ni).2.mem (bi + 8 - 8) = 4 * (ni - 8) := by
      show store mi bi ((sub64 ni WIDTH <<< 2) % 2 ^ 64) (bi + 8 - 8) = 4 * (ni - 8)
      rw [show bi + 8 - 8 = bi by omega]
      rw [store_eq, show WIDTH = 8 from rfl, hsub, shl2_mod_eq _ (by omega)]
    constructor
    · show Implicit.get_ul (Implicit.myinit mi bi ni).2.mem (Implicit.get_hdr (bi + 8)) >>> 2 = ni - 8
      rw [show Implicit.get_hdr (bi + 8) = bi + 8 - 8 by simp [Implicit.get_hdr, WIDTH]]
      show (Implicit.myinit mi bi ni).2.mem (bi + 8 - 8) >>> 2 = ni - 8
      rw [hw, mul4_shiftRight_eq]
    · show Implicit.get_ul (Implicit.myinit mi bi ni).2.mem (Implicit.get_hdr (bi + 8)) &&& 1 = 0
      rw [show Implicit.get_hdr (bi + 8) = bi + 8 - 8 by simp [Implicit.get_hdr, WIDTH]]
      show (Implicit.myinit mi bi ni).2.mem (bi + 8 - 8) &&& 1 = 0
      rw [hw, mul4_and_one_eq]

/-- C10 witness: instantiated at base 0, size 4096 over zero memory. -/
theorem init_always_succeeds_witness :
    (Explicit.myinit zeroMem 0 4096).1 = true ∧
    Explicit.get_block_size (Explicit.myinit zeroMem 0 4096).2.mem 8 = 4088 ∧
    Implicit.get_block_size (Implicit.myinit zeroMem 0 4096).2.mem 8 = 4088 := by
  obtain ⟨h1, _, _, _, _, h6, _, _, _, _, h11⟩ :=
    init_always_succeeds zeroMem zeroMem 0 0 4096 4096
  refine ⟨h1, ?_, ?_⟩
  · simpa using (h6 (by norm_num) (by norm_num)).1
  · simpa using (h11 (by norm_num) (by norm_num)).1
